import Mathlib

/-!
# Gauss-Jordan matrix inversion (`invert.c`)

A shallow embedding of `inv_mat`, `gauss_jordan` and `swap_rows`, with the
properties of the inversion routine proved over it.

Modelling conventions.

* `double` is modelled by `ℚ`: all statements are about exact arithmetic.
  `fabs` is the absolute value and the literal `1e-15` is `1 / 10 ^ 15`.
* A `double **` matrix is a total map from (row, column) to its entry.  The
  loops of the program only ever touch the cells inside the bounds they are
  given; cells outside keep their value.
* `unsigned int` indices are natural numbers.  A caller-owned
  `order x order` array of doubles forces `order < 2 ^ 31`, so `2 * order`
  cannot wrap.
* Every `malloc` of a run has its outcome fixed by an `Alloc` record: the
  row-pointer array, the `i`-th augmented row, and the scratch row of the
  call of `swap_rows` made at pivot step `i` (there is at most one per step).
  The record also fixes the unspecified contents of fresh memory.
-/

namespace MatrixInverter

/-- A matrix in memory: entry at (row, column). -/
abbrev Mat := Nat → Nat → ℚ

/-- The pivot tolerance, the literal `1e-15` of the source. -/
def eps : ℚ := 1 / 10 ^ 15

/-- The assignment `A[i][j] = v`. -/
def setEntry (A : Mat) (i j : Nat) (v : ℚ) : Mat :=
  fun r c => if r = i ∧ c = j then v else A r c

/-- The loop `for (i = 0; i < n; i++) s = body i s`. -/
def forLoop {σ : Type} (body : Nat → σ → σ) : Nat → σ → σ
  | 0, s => s
  | n + 1, s => body n (forLoop body n s)

/-- Outcomes of the `malloc` calls of one run of `inv_mat`. -/
structure Alloc where
  /-- The row-pointer array `A` was obtained. -/
  rows : Bool
  /-- The augmented row `A[i]` was obtained. -/
  row : Nat → Bool
  /-- The scratch row of `swap_rows` called at pivot step `i` was obtained. -/
  scratch : Nat → Bool
  /-- Contents of freshly allocated rows. -/
  fresh : Mat

/-- Every allocation succeeds; fresh memory reads as zero. -/
def Alloc.ok : Alloc := ⟨true, fun _ => true, fun _ => true, fun _ _ => 0⟩

/-- The three assignments exchanging `A[i][j]` and `A[row_num][j]` through
`temp_row[j]` (the scratch row itself is not part of the result). -/
def swap_entry (row_num i : Nat) (j : Nat) (A : Mat) : Mat :=
  let temp := A i j
  let A1 := setEntry A i j (A row_num j)
  setEntry A1 row_num j temp

/-- The loop `for (i = row_num + 1; i < row; i++)` of `swap_rows`, with its
early return: `todo` iterations remain and the next row examined is `i`.
Exhausting the loop returns 1 with the matrix untouched. -/
def swap_rows_scan (row_num : Nat) (A : Mat) (column : Nat) : Nat → Nat → Nat × Mat
  | 0, _ => (1, A)
  | todo + 1, i =>
    if |A i row_num| > eps then
      (0, forLoop (swap_entry row_num i) column A)
    else
      swap_rows_scan row_num A column todo (i + 1)

/-- The function `swap_rows`; `scratchOk` tells whether `temp_row` was
obtained.  Returns the status and the matrix afterwards. -/
def swap_rows (scratchOk : Bool) (row_num : Nat) (A : Mat) (row column : Nat) : Nat × Mat :=
  if scratchOk = false then (1, A)
  else swap_rows_scan row_num A column (row - (row_num + 1)) (row_num + 1)

/-- Near-zero pivot handling of `gauss_jordan` at step `i`. -/
def fix_pivot (scratchOk : Bool) (i : Nat) (A : Mat) (R C : Nat) : Mat :=
  if |A i i| < eps then
    let r := swap_rows scratchOk i A R C
    if r.1 = 1 then setEntry r.2 i i eps else r.2
  else A

/-- The loop scaling row `i` by the pivot `div_val`. -/
def scale_row (i : Nat) (div_val : ℚ) (C : Nat) (A : Mat) : Mat :=
  forLoop (fun j A => setEntry A i j (A i j / div_val)) C A

/-- The body of the loop over `k` in the elimination of column `i`. -/
def eliminate_row (i C : Nat) (k : Nat) (A : Mat) : Mat :=
  if k ≠ i then
    let div_val := A k i
    forLoop (fun j A => setEntry A k j (A k j - div_val * A i j)) C A
  else A

/-- One iteration of the outer loop of `gauss_jordan`. -/
def gj_step (al : Alloc) (R C : Nat) (i : Nat) (A : Mat) : Mat :=
  let A1 := fix_pivot (al.scratch i) i A R C
  let div_val := A1 i i
  let A2 := scale_row i div_val C A1
  forLoop (eliminate_row i C) R A2

/-- The function `gauss_jordan`. -/
def gauss_jordan (al : Alloc) (A : Mat) (R C : Nat) : Mat :=
  forLoop (gj_step al R C) R A

/-- The loop allocating the rows of the augmented matrix: false when one of
the first `n` row allocations fails. -/
def alloc_rows (al : Alloc) : Nat → Bool
  | 0 => true
  | n + 1 => alloc_rows al n && al.row n

/-- The loops initialising the augmented matrix `[A | I]`. -/
def augment (inp_MAT : Mat) (order : Nat) (A : Mat) : Mat :=
  forLoop (fun i A =>
    forLoop (fun j A =>
      let A1 := setEntry A i j (inp_MAT i j)
      setEntry A1 i (j + order) (if i = j then 1 else 0)) order A) order A

/-- The loops copying the right half of the working matrix to the output. -/
def extract (A : Mat) (order : Nat) (op_MAT : Mat) : Mat :=
  forLoop (fun i op =>
    forLoop (fun j op => setEntry op i j (A i (j + order))) order op) order op_MAT

/-- The function `inv_mat`: the returned status and the contents of the
caller's output matrix afterwards. -/
def inv_mat (al : Alloc) (inp_MAT : Mat) (order : Nat) (op_MAT : Mat) : Nat × Mat :=
  if al.rows = false then (99, op_MAT)
  else if alloc_rows al order = false then (99, op_MAT)
  else
    let A := augment inp_MAT order al.fresh
    let A1 := gauss_jordan al A order (2 * order)
    (0, extract A1 order op_MAT)

/-- The working matrix when pivot step `i` starts. -/
def pivotState (al : Alloc) (inp_MAT : Mat) (order : Nat) (i : Nat) : Mat :=
  forLoop (gj_step al order (2 * order)) i (augment inp_MAT order al.fresh)

/-- At a step starting from `A` the damping fallback is applied: the pivot is
below the tolerance and `swap_rows` reports failure. -/
def dampedAt (scratchOk : Bool) (i : Nat) (A : Mat) (R C : Nat) : Prop :=
  |A i i| < eps ∧ (swap_rows scratchOk i A R C).1 = 1

instance (scratchOk : Bool) (i : Nat) (A : Mat) (R C : Nat) :
    Decidable (dampedAt scratchOk i A R C) := by
  unfold dampedAt; infer_instance

/-- The run of `inv_mat` on `inp_MAT` never applies the damping fallback. -/
def neverDamped (al : Alloc) (inp_MAT : Mat) (order : Nat) : Prop :=
  ∀ i, i < order →
    ¬ dampedAt (al.scratch i) i (pivotState al inp_MAT order i) order (2 * order)

instance (al : Alloc) (inp_MAT : Mat) (order : Nat) :
    Decidable (neverDamped al inp_MAT order) := by
  unfold neverDamped; infer_instance

/-- A matrix given by its rows (zero outside), for concrete inputs. -/
def ofRows (rows : List (List ℚ)) : Mat :=
  fun r c => (rows.getD r []).getD c 0

/-- The `n x n` block of a matrix in memory, as a matrix over `Fin n`. -/
def toMatrix (n : Nat) (A : Mat) : Matrix (Fin n) (Fin n) ℚ :=
  Matrix.of fun i j => A i.val j.val

/-- A row `x` of the working matrix `[L | R]` satisfies the row equation
against `A`: its right half times `A` is its left half. -/
def rowOk (n : Nat) (A : Mat) (x : Nat → ℚ) : Prop :=
  ∀ c, c < n → ∑ k in Finset.range n, x (n + k) * A k c = x c

instance (n : Nat) (A : Mat) (x : Nat → ℚ) : Decidable (rowOk n A x) := by
  unfold rowOk; infer_instance

/-- The equation `R x A = L` for the working matrix `W = [L | R]`. -/
def rowInv (n : Nat) (A : Mat) (W : Mat) : Prop :=
  ∀ r, r < n → rowOk n A (W r)

instance (n : Nat) (A : Mat) (W : Mat) : Decidable (rowInv n A W) := by
  unfold rowInv; infer_instance

/-- Columns `0 .. i-1` of the working matrix are the unit vectors. -/
def unitCols (n i : Nat) (W : Mat) : Prop :=
  ∀ c, c < i → ∀ r, r < n → W r c = if r = c then 1 else 0

instance (n i : Nat) (W : Mat) : Decidable (unitCols n i W) := by
  unfold unitCols; infer_instance

/-- The value of the linear form with coefficients `v` on the left half of
the row `x`. -/
def rowDot (n : Nat) (x v : Nat → ℚ) : ℚ :=
  ∑ c in Finset.range n, x c * v c

/-- Every vector annihilated by the left half of `W` is annihilated by `A`. -/
def kerInv (n : Nat) (A : Mat) (W : Mat) : Prop :=
  ∀ v : Nat → ℚ, (∀ r, r < n → rowDot n (W r) v = 0) →
    ∀ r, r < n → rowDot n (A r) v = 0

/-- No pivot step before step `i` applies the damping fallback. -/
def undampedBefore (al : Alloc) (inp_MAT : Mat) (order : Nat) (i : Nat) : Prop :=
  ∀ j, j < i →
    ¬ dampedAt (al.scratch j) j (pivotState al inp_MAT order j) order (2 * order)

instance (al : Alloc) (inp_MAT : Mat) (order : Nat) (i : Nat) :
    Decidable (undampedBefore al inp_MAT order i) := by
  unfold undampedBefore; infer_instance

/-- The identity matrix in memory. -/
def identity : Mat := fun r c => if r = c then 1 else 0

/-- The scalar multiple `c x A`. -/
def smulMat (c : ℚ) (A : Mat) : Mat := fun r k => c * A r k

/-- Allocation outcomes in which the working buffer is obtained and every
scratch row of `swap_rows` is refused. -/
def Alloc.noScratch : Alloc := ⟨true, fun _ => true, fun _ => false, fun _ _ => 0⟩

/-- The right half of the working matrix `[L | R]`, as a matrix over `Fin n`. -/
def rightBlock (n : Nat) (W : Mat) : Matrix (Fin n) (Fin n) ℚ :=
  Matrix.of fun i j => W i.val (n + j.val)

/-- The value of `div_val` when the row-scaling loop of pivot step `i` starts
on the working matrix `A`: the pivot read after the near-zero handling. -/
def scaling_div_val (al : Alloc) (R C i : Nat) (A : Mat) : ℚ :=
  fix_pivot (al.scratch i) i A R C i i

/-- The working matrix after the first `i` pivot steps of `gauss_jordan`
started on an arbitrary matrix `A`. -/
def afterSteps (al : Alloc) (A : Mat) (R C : Nat) (i : Nat) : Mat :=
  forLoop (gj_step al R C) i A

/-- The equation `R x A = L` between the halves of the working matrix
`W = [L | R]` and the input `A`, as an equation of `n x n` matrices. -/
def rowEquation (n : Nat) (A : Mat) (W : Mat) : Prop :=
  rightBlock n W * toMatrix n A = toMatrix n W

instance (n : Nat) (A : Mat) (W : Mat) : Decidable (rowEquation n A W) := by
  unfold rowEquation; infer_instance

/-! ## Closed forms of the loops -/

theorem forLoop_succ {σ : Type} (body : Nat → σ → σ) (n : Nat) (s : σ) :
    forLoop body (n + 1) s = body n (forLoop body n s) := rfl

theorem forLoop_zero {σ : Type} (body : Nat → σ → σ) (s : σ) :
    forLoop body 0 s = s := rfl

theorem scale_row_apply (i : Nat) (d : ℚ) (C : Nat) (A : Mat) (r c : Nat) :
    scale_row i d C A r c = if r = i ∧ c < C then A r c / d else A r c := by
  induction C generalizing r c with
  | zero => simp [scale_row, forLoop]
  | succ n ih =>
    have hstep : scale_row i d (n + 1) A
        = setEntry (scale_row i d n A) i n (scale_row i d n A i n / d) := rfl
    rw [hstep]
    simp only [setEntry, ih]
    by_cases hr : r = i <;> by_cases hc : c = n
    · subst hr; subst hc; simp
    · have : c < n + 1 ↔ c < n := by omega
      simp [hr, hc, this]
    · simp [hr, hc]
    · simp [hr, hc]

/-- The inner loop of the elimination: row `k` minus `d` times row `i`. -/
theorem sub_row_apply (i k : Nat) (hk : k ≠ i) (d : ℚ) (C : Nat) (A : Mat) (r c : Nat) :
    forLoop (fun j A => setEntry A k j (A k j - d * A i j)) C A r c
      = if r = k ∧ c < C then A r c - d * A i c else A r c := by
  induction C generalizing r c with
  | zero => simp [forLoop]
  | succ n ih =>
    rw [forLoop_succ]
    simp only [setEntry, ih]
    have hik : ¬ i = k := fun h => hk h.symm
    by_cases hr : r = k <;> by_cases hc : c = n
    · subst hr; subst hc; simp [hik]
    · have : c < n + 1 ↔ c < n := by omega
      simp [hr, hc, this]
    · simp [hr, hc]
    · simp [hr, hc]

theorem eliminate_row_apply (i C k : Nat) (A : Mat) (r c : Nat) :
    eliminate_row i C k A r c
      = if k ≠ i ∧ r = k ∧ c < C then A r c - A k i * A i c else A r c := by
  unfold eliminate_row
  by_cases hk : k = i
  · simp [hk]
  · simp only [hk, ne_eq, not_false_eq_true, if_true, true_and]
    exact sub_row_apply i k hk (A k i) C A r c

theorem eliminate_apply (i C R : Nat) (A : Mat) (r c : Nat) :
    forLoop (eliminate_row i C) R A r c
      = if r < R ∧ r ≠ i ∧ c < C then A r c - A r i * A i c else A r c := by
  induction R generalizing r c with
  | zero => simp [forLoop]
  | succ n ih =>
    rw [forLoop_succ, eliminate_row_apply]
    by_cases hn : n = i
    · subst hn
      have : ∀ x : Nat, (x < n + 1 ∧ x ≠ n) ↔ (x < n ∧ x ≠ n) := by intro x; omega
      simp only [ne_eq, not_true_eq_false, false_and, if_false, ih]
      by_cases h1 : r < n ∧ ¬ r = n ∧ c < C
      · have h2 : r < n + 1 ∧ ¬ r = n ∧ c < C := ⟨by omega, h1.2.1, h1.2.2⟩
        simp [h1, h2]
      · have h2 : ¬ (r < n + 1 ∧ ¬ r = n ∧ c < C) := by
          intro h; exact h1 ⟨by omega, h.2.1, h.2.2⟩
        simp [h1, h2]
    · by_cases hr : r = n
      · subst hr
        simp [ih, hn]
      · have h3 : (r < n + 1 ∧ r ≠ i ∧ c < C) ↔ (r < n ∧ r ≠ i ∧ c < C) := by
          constructor
          · intro h; exact ⟨by omega, h.2⟩
          · intro h; exact ⟨by omega, h.2⟩
        simp only [ne_eq, hr, false_and, and_false, if_false, ih]
        simp only [ne_eq] at h3
        by_cases h4 : r < n ∧ ¬ r = i ∧ c < C
        · simp [h4, h3.2 h4]
        · have : ¬ (r < n + 1 ∧ ¬ r = i ∧ c < C) := fun h => h4 (h3.1 h)
          simp [h4, this]

theorem swap_loop_apply (row_num i column : Nat) (A : Mat) (r c : Nat) :
    forLoop (swap_entry row_num i) column A r c
      = if c < column then
          (if r = row_num then A i c else if r = i then A row_num c else A r c)
        else A r c := by
  induction column generalizing r c with
  | zero => simp [forLoop]
  | succ n ih =>
    rw [forLoop_succ]
    simp only [swap_entry, setEntry, ih]
    by_cases hc : c = n
    · subst hc
      by_cases h1 : r = row_num <;> by_cases h2 : r = i <;> simp [h1, h2]
    · have : c < n + 1 ↔ c < n := by omega
      simp [hc, this]

theorem augment_row_apply (inp : Mat) (n i m : Nat) (hm : m ≤ n) (A : Mat) (r c : Nat) :
    forLoop (fun j A =>
        let A1 := setEntry A i j (inp i j)
        setEntry A1 i (j + n) (if i = j then 1 else 0)) m A r c
      = if r = i then
          (if c < m then inp i c
           else if n ≤ c ∧ c < n + m then (if i + n = c then 1 else 0)
           else A r c)
        else A r c := by
  induction m generalizing r c with
  | zero =>
    have e : ¬ (n ≤ c ∧ c < n) := by omega
    simp [forLoop, e]
  | succ k ih =>
    rw [forLoop_succ]
    simp only [setEntry, ih (by omega)]
    by_cases hr : r = i
    · subst hr
      by_cases h1 : c = k + n
      · subst h1
        have e1 : ¬ (k + n < k + 1) := by omega
        have e2 : n ≤ k + n ∧ k + n < n + (k + 1) := by omega
        have e3 : r + n = k + n ↔ r = k := by omega
        simp [e1, e2, e3]
      · by_cases h2 : c = k
        · subst h2
          simp [h1]
        · have e1 : c < k + 1 ↔ c < k := by omega
          have e2 : (n ≤ c ∧ c < n + (k + 1)) ↔ (n ≤ c ∧ c < n + k) := by omega
          simp [h1, h2, e1, e2]
    · simp [hr]

theorem augment_apply (inp : Mat) (n : Nat) (A : Mat) (r c : Nat) :
    augment inp n A r c
      = if r < n then
          (if c < n then inp r c
           else if c < 2 * n then (if r + n = c then 1 else 0)
           else A r c)
        else A r c := by
  have key : ∀ R, forLoop (fun i A =>
      forLoop (fun j A =>
        let A1 := setEntry A i j (inp i j)
        setEntry A1 i (j + n) (if i = j then 1 else 0)) n A) R A r c
      = if r < R then
          (if c < n then inp r c
           else if c < 2 * n then (if r + n = c then 1 else 0)
           else A r c)
        else A r c := by
    intro R
    induction R generalizing r c with
    | zero => simp [forLoop]
    | succ k ih =>
      rw [forLoop_succ, augment_row_apply inp n k n (le_refl n)]
      by_cases hr : r = k
      · subst hr
        by_cases h1 : c < n
        · simp [h1]
        · have e : (n ≤ c ∧ c < n + n) ↔ c < 2 * n := by omega
          simp [h1, e, ih]
      · have e : r < k + 1 ↔ r < k := by omega
        simp [hr, e, ih]
  exact key n

theorem extract_row_apply (A : Mat) (n i m : Nat) (op : Mat) (r c : Nat) :
    forLoop (fun j op => setEntry op i j (A i (j + n))) m op r c
      = if r = i ∧ c < m then A r (c + n) else op r c := by
  induction m generalizing r c with
  | zero => simp [forLoop]
  | succ k ih =>
    rw [forLoop_succ]
    simp only [setEntry, ih]
    by_cases hr : r = i <;> by_cases hc : c = k
    · subst hr; subst hc; simp
    · have : c < k + 1 ↔ c < k := by omega
      simp [hr, hc, this]
    · simp [hr, hc]
    · simp [hr, hc]

theorem extract_apply (A : Mat) (n : Nat) (op : Mat) (r c : Nat) :
    extract A n op r c = if r < n ∧ c < n then A r (c + n) else op r c := by
  have key : ∀ R, forLoop (fun i op =>
      forLoop (fun j op => setEntry op i j (A i (j + n))) n op) R op r c
      = if r < R ∧ c < n then A r (c + n) else op r c := by
    intro R
    induction R generalizing r c with
    | zero => simp [forLoop]
    | succ k ih =>
      rw [forLoop_succ, extract_row_apply]
      by_cases hr : r = k
      · subst hr
        by_cases h1 : c < n
        · simp [h1]
        · simp [h1, ih]
      · have e : r < k + 1 ↔ r < k := by omega
        simp [hr, e, ih]
  exact key n

/-- Closed form of one pivot step in terms of the matrix after pivot fixing. -/
theorem gj_step_apply (al : Alloc) (R C i : Nat) (A : Mat) (r c : Nat) :
    gj_step al R C i A r c
      = if r = i then
          (if c < C then fix_pivot (al.scratch i) i A R C i c
                          / fix_pivot (al.scratch i) i A R C i i
           else fix_pivot (al.scratch i) i A R C i c)
        else if r < R ∧ c < C then
          fix_pivot (al.scratch i) i A R C r c
            - fix_pivot (al.scratch i) i A R C r i
              * (fix_pivot (al.scratch i) i A R C i c
                  / fix_pivot (al.scratch i) i A R C i i)
        else fix_pivot (al.scratch i) i A R C r c := by
  unfold gj_step
  simp only [eliminate_apply, scale_row_apply]
  by_cases hr : r = i
  · subst hr; simp
  · by_cases h1 : r < R ∧ c < C
    · have h2 : r < R ∧ r ≠ i ∧ c < C := ⟨h1.1, hr, h1.2⟩
      simp [hr, h1, h2]
    · have h2 : ¬ (r < R ∧ r ≠ i ∧ c < C) := fun h => h1 ⟨h.1, h.2.2⟩
      simp [hr, h1, h2]

/-! ## The row search of `swap_rows` and the pivot fixing -/

theorem swap_rows_scan_fail (row_num : Nat) (A : Mat) (column todo i : Nat)
    (h : ∀ m, i ≤ m → m < i + todo → ¬ (|A m row_num| > eps)) :
    swap_rows_scan row_num A column todo i = (1, A) := by
  induction todo generalizing i with
  | zero => rfl
  | succ t ih =>
    have h0 : ¬ (|A i row_num| > eps) := h i (le_refl i) (by omega)
    simp only [swap_rows_scan, h0, if_false]
    exact ih (i + 1) (fun m h1 h2 => h m (by omega) (by omega))

theorem swap_rows_scan_hit (row_num : Nat) (A : Mat) (column todo i m : Nat)
    (h1 : i ≤ m) (h2 : m < i + todo) (h3 : |A m row_num| > eps)
    (h4 : ∀ k, i ≤ k → k < m → ¬ (|A k row_num| > eps)) :
    swap_rows_scan row_num A column todo i
      = (0, forLoop (swap_entry row_num m) column A) := by
  induction todo generalizing i with
  | zero => omega
  | succ t ih =>
    by_cases e : i = m
    · subst e
      simp only [swap_rows_scan, h3, if_true]
    · have h0 : ¬ (|A i row_num| > eps) := h4 i (le_refl i) (by omega)
      simp only [swap_rows_scan, h0, if_false]
      exact ih (i + 1) (by omega) (by omega) (fun k k1 k2 => h4 k (by omega) k2)

theorem swap_rows_scan_cases (row_num : Nat) (A : Mat) (column todo i : Nat) :
    ((∀ m, i ≤ m → m < i + todo → ¬ (|A m row_num| > eps))
        ∧ swap_rows_scan row_num A column todo i = (1, A))
    ∨ ∃ m, i ≤ m ∧ m < i + todo ∧ |A m row_num| > eps
        ∧ (∀ k, i ≤ k → k < m → ¬ (|A k row_num| > eps))
        ∧ swap_rows_scan row_num A column todo i
            = (0, forLoop (swap_entry row_num m) column A) := by
  induction todo generalizing i with
  | zero =>
    left
    exact ⟨fun m h1 h2 => by omega, rfl⟩
  | succ t ih =>
    by_cases h0 : |A i row_num| > eps
    · right
      refine ⟨i, le_refl i, by omega, h0, fun k k1 k2 => by omega, ?_⟩
      simp only [swap_rows_scan, h0, if_true]
    · rcases ih (i + 1) with ⟨hall, hres⟩ | ⟨m, m1, m2, m3, m4, hres⟩
      · left
        refine ⟨?_, ?_⟩
        · intro m h1 h2
          by_cases e : m = i
          · subst e; exact h0
          · exact hall m (by omega) (by omega)
        · simp only [swap_rows_scan, h0, if_false]
          exact hres
      · right
        refine ⟨m, by omega, by omega, m3, ?_, ?_⟩
        · intro k k1 k2
          by_cases e : k = i
          · subst e; exact h0
          · exact m4 k (by omega) k2
        · simp only [swap_rows_scan, h0, if_false]
          exact hres

/-- The three ways the pivot handling of a step can go. -/
theorem fix_pivot_cases (ok : Bool) (i : Nat) (A : Mat) (R C : Nat) :
    (¬ (|A i i| < eps) ∧ fix_pivot ok i A R C = A)
    ∨ (dampedAt ok i A R C ∧ fix_pivot ok i A R C = setEntry A i i eps)
    ∨ (|A i i| < eps ∧ ¬ dampedAt ok i A R C ∧ ok = true ∧
        ∃ m, i < m ∧ m < R ∧ |A m i| > eps
          ∧ (∀ k, i < k → k < m → ¬ (|A k i| > eps))
          ∧ fix_pivot ok i A R C = forLoop (swap_entry i m) C A) := by
  by_cases hp : |A i i| < eps
  · right
    cases ok with
    | false =>
      left
      have hs : swap_rows false i A R C = (1, A) := by simp [swap_rows]
      refine ⟨⟨hp, by rw [hs]⟩, ?_⟩
      simp [fix_pivot, hp, hs]
    | true =>
      have hs : swap_rows true i A R C
          = swap_rows_scan i A C (R - (i + 1)) (i + 1) := by simp [swap_rows]
      rcases swap_rows_scan_cases i A C (R - (i + 1)) (i + 1) with
        ⟨_, hres⟩ | ⟨m, m1, m2, m3, m4, hres⟩
      · left
        refine ⟨⟨hp, by rw [hs, hres]⟩, ?_⟩
        simp [fix_pivot, hp, hs, hres]
      · right
        refine ⟨hp, ?_, rfl, m, by omega, by omega, m3,
          fun k k1 k2 => m4 k (by omega) k2, ?_⟩
        · intro hd
          have := hd.2
          rw [hs, hres] at this
          simp at this
        · simp [fix_pivot, hp, hs, hres]
  · left
    exact ⟨hp, by simp [fix_pivot, hp]⟩

theorem eps_pos : (0 : ℚ) < eps := by
  unfold eps; positivity

/-- After the pivot handling the pivot is at least the tolerance in absolute
value, hence non-zero. -/
theorem fix_pivot_pivot (ok : Bool) (i : Nat) (A : Mat) (R C : Nat) (hi : i < C) :
    eps ≤ |fix_pivot ok i A R C i i| := by
  rcases fix_pivot_cases ok i A R C with ⟨h, e⟩ | ⟨_, e⟩ | ⟨_, _, _, m, m1, _, m3, _, e⟩
  · rw [e]; exact not_lt.mp h
  · rw [e]
    simp [setEntry, abs_of_pos eps_pos]
  · rw [e, swap_loop_apply]
    simp only [hi, if_true]
    exact le_of_lt m3

theorem fix_pivot_ne_zero (ok : Bool) (i : Nat) (A : Mat) (R C : Nat) (hi : i < C) :
    fix_pivot ok i A R C i i ≠ 0 := by
  intro h
  have := fix_pivot_pivot ok i A R C hi
  rw [h, abs_zero] at this
  exact absurd eps_pos (not_lt.mpr this)

/-! ## The row equation `R x A = L` -/

theorem rowOk_congr (n : Nat) (A : Mat) (x y : Nat → ℚ)
    (h : ∀ c, c < 2 * n → x c = y c) (hx : rowOk n A x) : rowOk n A y := by
  intro c hc
  rw [← h c (by omega), ← hx c hc]
  apply Finset.sum_congr rfl
  intro k hk
  have hk2 := Finset.mem_range.mp hk
  rw [h (n + k) (by omega)]

theorem rowOk_div (n : Nat) (A : Mat) (x : Nat → ℚ) (d : ℚ) (hx : rowOk n A x) :
    rowOk n A (fun c => x c / d) := by
  intro c hc
  show ∑ k in Finset.range n, x (n + k) / d * A k c = x c / d
  rw [← hx c hc, Finset.sum_div]
  apply Finset.sum_congr rfl
  intro k _
  ring

theorem rowOk_sub_mul (n : Nat) (A : Mat) (x y : Nat → ℚ) (f : ℚ)
    (hx : rowOk n A x) (hy : rowOk n A y) : rowOk n A (fun c => x c - f * y c) := by
  intro c hc
  show ∑ k in Finset.range n, (x (n + k) - f * y (n + k)) * A k c = x c - f * y c
  rw [← hx c hc, ← hy c hc, Finset.mul_sum, ← Finset.sum_sub_distrib]
  apply Finset.sum_congr rfl
  intro k _
  ring

theorem rowInv_augment (n : Nat) (A fresh : Mat) : rowInv n A (augment A n fresh) := by
  intro r hr c hc
  rw [augment_apply]
  simp only [hr, hc, if_true]
  have e : ∀ k, k ∈ Finset.range n →
      augment A n fresh r (n + k) * A k c = if r = k then A k c else 0 := by
    intro k hk
    have hk2 := Finset.mem_range.mp hk
    rw [augment_apply]
    have e1 : ¬ (n + k < n) := by omega
    have e2 : n + k < 2 * n := by omega
    have e3 : r + n = n + k ↔ r = k := by omega
    simp only [hr, e1, e2, e3, if_true, if_false]
    split_ifs <;> simp
  rw [Finset.sum_congr rfl e, Finset.sum_ite_eq]
  simp [hr]

/-- The pivot handling keeps the row equation unless it damps. -/
theorem rowInv_fix_pivot (ok : Bool) (n i : Nat) (A W : Mat) (hi : i < n)
    (hW : rowInv n A W) (hnd : ¬ dampedAt ok i W n (2 * n)) :
    rowInv n A (fix_pivot ok i W n (2 * n)) := by
  rcases fix_pivot_cases ok i W n (2 * n) with ⟨_, e⟩ | ⟨hd, _⟩ | ⟨_, _, _, m, m1, m2, _, _, e⟩
  · rw [e]; exact hW
  · exact absurd hd hnd
  · rw [e]
    intro r hr
    by_cases h1 : r = i
    · apply rowOk_congr n A (W m) _ _ (hW m m2)
      intro c hc
      rw [swap_loop_apply]
      simp [hc, h1]
    · by_cases h2 : r = m
      · apply rowOk_congr n A (W i) _ _ (hW i hi)
        intro c hc
        rw [swap_loop_apply]
        have h3 : ¬ m = i := by omega
        simp [hc, h2, h3]
      · apply rowOk_congr n A (W r) _ _ (hW r hr)
        intro c hc
        rw [swap_loop_apply]
        simp [hc, h1, h2]

/-- A pivot step that is not damped keeps the row equation: the new rows are
row `i` divided by the pivot and the other rows minus a multiple of it. -/
theorem rowInv_gj_step (al : Alloc) (n i : Nat) (A W : Mat) (hi : i < n)
    (hW : rowInv n A W) (hnd : ¬ dampedAt (al.scratch i) i W n (2 * n)) :
    rowInv n A (gj_step al n (2 * n) i W) := by
  have hF := rowInv_fix_pivot (al.scratch i) n i A W hi hW hnd
  have hpiv := rowOk_div n A _ (fix_pivot (al.scratch i) i W n (2 * n) i i) (hF i hi)
  intro r hr
  by_cases h1 : r = i
  · apply rowOk_congr n A _ _ _ hpiv
    intro c hc
    rw [gj_step_apply]
    simp [h1, hc]
  · apply rowOk_congr n A _ _ _
      (rowOk_sub_mul n A _ _ (fix_pivot (al.scratch i) i W n (2 * n) r i) (hF r hr) hpiv)
    intro c hc
    rw [gj_step_apply]
    simp [h1, hc, hr]

theorem pivotState_succ (al : Alloc) (A : Mat) (n i : Nat) :
    pivotState al A n (i + 1) = gj_step al n (2 * n) i (pivotState al A n i) := rfl

theorem rowInv_pivotState (al : Alloc) (A : Mat) (n i : Nat) (hi : i ≤ n)
    (hnd : undampedBefore al A n i) : rowInv n A (pivotState al A n i) := by
  induction i with
  | zero => exact rowInv_augment n A al.fresh
  | succ j ih =>
    rw [pivotState_succ]
    apply rowInv_gj_step al n j A _ (by omega)
    · exact ih (by omega) (fun k hk => hnd k (by omega))
    · exact hnd j (by omega)

/-! ## The reduced columns -/

theorem unitCols_fix_pivot (ok : Bool) (n i : Nat) (W : Mat) (hi : i < n)
    (hW : unitCols n i W) : unitCols n i (fix_pivot ok i W n (2 * n)) := by
  rcases fix_pivot_cases ok i W n (2 * n) with ⟨_, e⟩ | ⟨_, e⟩ | ⟨_, _, _, m, m1, m2, _, _, e⟩
  · rw [e]; exact hW
  · rw [e]
    intro c hc r hr
    have : ¬ (r = i ∧ c = i) := by omega
    simp only [setEntry, this, if_false]
    exact hW c hc r hr
  · rw [e]
    intro c hc r hr
    rw [swap_loop_apply]
    have hc2 : c < 2 * n := by omega
    simp only [hc2, if_true]
    by_cases h1 : r = i
    · rw [if_pos h1, hW c hc m m2]
      have e1 : ¬ m = c := by omega
      have e2 : ¬ r = c := by omega
      simp [e1, e2]
    · by_cases h2 : r = m
      · rw [if_neg h1, if_pos h2, hW c hc i hi]
        have e1 : ¬ i = c := by omega
        have e2 : ¬ r = c := by omega
        simp [e1, e2]
      · rw [if_neg h1, if_neg h2]
        exact hW c hc r hr

theorem unitCols_gj_step (al : Alloc) (n i : Nat) (W : Mat) (hi : i < n)
    (hW : unitCols n i W) : unitCols n (i + 1) (gj_step al n (2 * n) i W) := by
  have hF := unitCols_fix_pivot (al.scratch i) n i W hi hW
  have hp := fix_pivot_ne_zero (al.scratch i) i W n (2 * n) (by omega)
  intro c hc r hr
  have hc2 : c < 2 * n := by omega
  rw [gj_step_apply]
  by_cases hci : c = i
  · subst hci
    by_cases h1 : r = c
    · subst h1
      simp [hc2, div_self hp]
    · simp [h1, hr, hc2, div_self hp]
  · have hc3 : c < i := by omega
    have e0 : fix_pivot (al.scratch i) i W n (2 * n) i c = 0 := by
      rw [hF c hc3 i hi]
      have : ¬ i = c := by omega
      simp [this]
    by_cases h1 : r = i
    · have : ¬ r = c := by omega
      simp [h1, hc2, e0, hci, Ne.symm hci]
    · simp only [h1, hr, hc2, e0, if_false, if_true, and_self, zero_div, mul_zero, sub_zero]
      exact hF c hc3 r hr

theorem unitCols_pivotState (al : Alloc) (A : Mat) (n i : Nat) (hi : i ≤ n) :
    unitCols n i (pivotState al A n i) := by
  induction i with
  | zero => intro c hc; omega
  | succ j ih =>
    rw [pivotState_succ]
    exact unitCols_gj_step al n j _ (by omega) (ih (by omega))

/-! ## The result of `inv_mat` -/

theorem alloc_rows_eq_true (al : Alloc) (n : Nat) :
    alloc_rows al n = true ↔ ∀ i, i < n → al.row i = true := by
  induction n with
  | zero => simp [alloc_rows]
  | succ k ih =>
    simp only [alloc_rows, Bool.and_eq_true, ih]
    constructor
    · rintro ⟨h1, h2⟩ i hi
      by_cases e : i = k
      · subst e; exact h2
      · exact h1 i (by omega)
    · intro h
      exact ⟨fun i hi => h i (by omega), h k (by omega)⟩

/-- With the working buffer obtained, `inv_mat` returns 0 and copies the
right half of the final working matrix to the output. -/
theorem inv_mat_of_alloc (al : Alloc) (A op : Mat) (n : Nat)
    (h1 : al.rows = true) (h2 : ∀ i, i < n → al.row i = true) :
    inv_mat al A n op = (0, extract (pivotState al A n n) n op) := by
  have h3 := (alloc_rows_eq_true al n).mpr h2
  simp [inv_mat, h1, h3, gauss_jordan, pivotState]

theorem inv_mat_entry (al : Alloc) (A op : Mat) (n : Nat)
    (h1 : al.rows = true) (h2 : ∀ i, i < n → al.row i = true)
    (r c : Nat) (hr : r < n) (hc : c < n) :
    (inv_mat al A n op).2 r c = pivotState al A n n r (c + n) := by
  rw [inv_mat_of_alloc al A op n h1 h2]
  simp [extract_apply, hr, hc]

/-- An undamped run returns a left inverse of the input. -/
theorem inv_mat_left_inverse (al : Alloc) (A op : Mat) (n : Nat)
    (h1 : al.rows = true) (h2 : ∀ i, i < n → al.row i = true)
    (hnd : neverDamped al A n) :
    toMatrix n (inv_mat al A n op).2 * toMatrix n A = 1 := by
  have hrow := rowInv_pivotState al A n n (le_refl n) hnd
  have hunit := unitCols_pivotState al A n n (le_refl n)
  ext r c
  rw [Matrix.mul_apply, Matrix.one_apply]
  have e : ∀ k : Fin n, toMatrix n (inv_mat al A n op).2 r k * toMatrix n A k c
      = pivotState al A n n r.val (n + k.val) * A k.val c.val := by
    intro k
    simp only [toMatrix, Matrix.of_apply]
    rw [inv_mat_entry al A op n h1 h2 r.val k.val r.isLt k.isLt, add_comm]
  rw [Finset.sum_congr rfl (fun k _ => e k)]
  rw [← Finset.sum_range (fun k => pivotState al A n n r.val (n + k) * A k c.val)]
  rw [hrow r.val r.isLt c.val c.isLt, hunit c.val c.isLt r.val r.isLt]
  simp [Fin.ext_iff]

/-- C1. Inverse-product law: when the working buffer is obtained and the run
on `A` never applies the damping fallback, `inv_mat` returns 0 and its output
`B` satisfies `A * B = 1` and `B * A = 1`; in particular `A` is invertible. -/
theorem inv_mat_inverse_product (al : Alloc) (A op : Mat) (n : Nat)
    (h1 : al.rows = true) (h2 : ∀ i, i < n → al.row i = true)
    (hnd : neverDamped al A n) :
    (inv_mat al A n op).1 = 0
      ∧ toMatrix n A * toMatrix n (inv_mat al A n op).2 = 1
      ∧ toMatrix n (inv_mat al A n op).2 * toMatrix n A = 1
      ∧ IsUnit (toMatrix n A) := by
  have hl := inv_mat_left_inverse al A op n h1 h2 hnd
  refine ⟨?_, Matrix.mul_eq_one_comm.mp hl, hl, Matrix.isUnit_of_left_inverse hl⟩
  rw [inv_mat_of_alloc al A op n h1 h2]

/-- A pivot step whose pivot passes the tolerance test, in closed form. -/
theorem gj_step_apply_ok (al : Alloc) (R C i : Nat) (A : Mat) (r c : Nat)
    (h : ¬ (|A i i| < eps)) :
    gj_step al R C i A r c
      = if r = i then (if c < C then A i c / A i i else A i c)
        else if r < R ∧ c < C then A r c - A r i * (A i c / A i i)
        else A r c := by
  rw [gj_step_apply]
  have e : fix_pivot (al.scratch i) i A R C = A := by simp [fix_pivot, h]
  rw [e]

theorem ex_state0 (al : Alloc) (r c : Nat) (hr : r < 2) (hc : c < 4) :
    pivotState al (ofRows [[4, 7], [2, 6]]) 2 0 r c
      = ofRows [[4, 7, 1, 0], [2, 6, 0, 1]] r c := by
  show augment _ 2 al.fresh r c = _
  rw [augment_apply]
  interval_cases r <;> interval_cases c <;> simp [ofRows]

theorem ex_state1 (al : Alloc) (r c : Nat) (hr : r < 2) (hc : c < 4) :
    pivotState al (ofRows [[4, 7], [2, 6]]) 2 1 r c
      = ofRows [[1, 7/4, 1/4, 0], [0, 5/2, -1/2, 1]] r c := by
  rw [pivotState_succ, gj_step_apply_ok]
  · interval_cases r <;> interval_cases c <;> simp [ex_state0, ofRows] <;> norm_num
  · rw [ex_state0 al 0 0 (by norm_num) (by norm_num)]
    norm_num [ofRows, eps, abs_lt]

theorem ex_state2 (al : Alloc) (r c : Nat) (hr : r < 2) (hc : c < 4) :
    pivotState al (ofRows [[4, 7], [2, 6]]) 2 2 r c
      = ofRows [[1, 0, 3/5, -7/10], [0, 1, -1/5, 2/5]] r c := by
  rw [pivotState_succ, gj_step_apply_ok]
  · interval_cases r <;> interval_cases c <;> simp [ex_state1, ofRows] <;> norm_num
  · rw [ex_state1 al 1 1 (by norm_num) (by norm_num)]
    norm_num [ofRows, eps, abs_lt]

theorem ex_neverDamped (al : Alloc) : neverDamped al (ofRows [[4, 7], [2, 6]]) 2 := by
  intro i hi hd
  have h := hd.1
  interval_cases i
  · rw [ex_state0 al 0 0 (by norm_num) (by norm_num)] at h
    norm_num [ofRows, eps, abs_lt] at h
  · rw [ex_state1 al 1 1 (by norm_num) (by norm_num)] at h
    norm_num [ofRows, eps, abs_lt] at h

/-- C1 at the matrix `[[4,7],[2,6]]`. -/
theorem inv_mat_inverse_product_witness :
    (inv_mat Alloc.ok (ofRows [[4, 7], [2, 6]]) 2 (fun _ _ => 0)).1 = 0
      ∧ toMatrix 2 (ofRows [[4, 7], [2, 6]])
          * toMatrix 2 (inv_mat Alloc.ok (ofRows [[4, 7], [2, 6]]) 2 (fun _ _ => 0)).2 = 1
      ∧ toMatrix 2 (inv_mat Alloc.ok (ofRows [[4, 7], [2, 6]]) 2 (fun _ _ => 0)).2
          * toMatrix 2 (ofRows [[4, 7], [2, 6]]) = 1
      ∧ IsUnit (toMatrix 2 (ofRows [[4, 7], [2, 6]])) :=
  inv_mat_inverse_product Alloc.ok (ofRows [[4, 7], [2, 6]]) (fun _ _ => 0) 2 rfl
    (fun _ _ => rfl) (ex_neverDamped Alloc.ok)

/-- C3. Known example: on `[[4,7],[2,6]]` with order 2, once the working
buffer is obtained, `inv_mat` returns 0 and writes
`[[3/5, -7/10], [-1/5, 2/5]]` to the output. -/
theorem inv_mat_known_example (al : Alloc) (op : Mat)
    (h1 : al.rows = true) (h2 : ∀ i, i < 2 → al.row i = true) :
    (inv_mat al (ofRows [[4, 7], [2, 6]]) 2 op).1 = 0
      ∧ (inv_mat al (ofRows [[4, 7], [2, 6]]) 2 op).2 0 0 = 3 / 5
      ∧ (inv_mat al (ofRows [[4, 7], [2, 6]]) 2 op).2 0 1 = -7 / 10
      ∧ (inv_mat al (ofRows [[4, 7], [2, 6]]) 2 op).2 1 0 = -1 / 5
      ∧ (inv_mat al (ofRows [[4, 7], [2, 6]]) 2 op).2 1 1 = 2 / 5 := by
  refine ⟨?_, ?_, ?_, ?_, ?_⟩
  · rw [inv_mat_of_alloc al _ op 2 h1 h2]
  · rw [inv_mat_entry al _ op 2 h1 h2 0 0 (by norm_num) (by norm_num),
      ex_state2 al 0 2 (by norm_num) (by norm_num)]
    norm_num [ofRows]
  · rw [inv_mat_entry al _ op 2 h1 h2 0 1 (by norm_num) (by norm_num),
      ex_state2 al 0 3 (by norm_num) (by norm_num)]
    norm_num [ofRows]
  · rw [inv_mat_entry al _ op 2 h1 h2 1 0 (by norm_num) (by norm_num),
      ex_state2 al 1 2 (by norm_num) (by norm_num)]
    norm_num [ofRows]
  · rw [inv_mat_entry al _ op 2 h1 h2 1 1 (by norm_num) (by norm_num),
      ex_state2 al 1 3 (by norm_num) (by norm_num)]
    norm_num [ofRows]

/-- C3 with every allocation succeeding and a zeroed output buffer. -/
theorem inv_mat_known_example_witness :
    (inv_mat Alloc.ok (ofRows [[4, 7], [2, 6]]) 2 (fun _ _ => 0)).1 = 0
      ∧ (inv_mat Alloc.ok (ofRows [[4, 7], [2, 6]]) 2 (fun _ _ => 0)).2 0 0 = 3 / 5
      ∧ (inv_mat Alloc.ok (ofRows [[4, 7], [2, 6]]) 2 (fun _ _ => 0)).2 0 1 = -7 / 10
      ∧ (inv_mat Alloc.ok (ofRows [[4, 7], [2, 6]]) 2 (fun _ _ => 0)).2 1 0 = -1 / 5
      ∧ (inv_mat Alloc.ok (ofRows [[4, 7], [2, 6]]) 2 (fun _ _ => 0)).2 1 1 = 2 / 5 :=
  inv_mat_known_example Alloc.ok (fun _ _ => 0) rfl (fun _ _ => rfl)

/-! ## Diagonal input -/

/-- On a matrix whose off-diagonal entries vanish and whose diagonal passes
the tolerance test, step `i` starts from `[diag(1,..,1,d_i,..) | diag(1/d_0,..,1/d_(i-1),1,..)]`. -/
theorem diag_pivotState (al : Alloc) (A : Mat) (n : Nat)
    (hoff : ∀ r c, r < n → c < n → r ≠ c → A r c = 0)
    (hdiag : ∀ i, i < n → eps ≤ |A i i|)
    (i : Nat) (hi : i ≤ n) (r c : Nat) (hr : r < n) (hc : c < 2 * n) :
    pivotState al A n i r c
      = if c < n then (if r = c then (if r < i then 1 else A r r) else 0)
        else (if r + n = c then (if r < i then 1 / A r r else 1) else 0) := by
  induction i generalizing r c with
  | zero =>
    show augment A n al.fresh r c = _
    rw [augment_apply]
    simp only [hr, hc, if_true, Nat.not_lt_zero, if_false]
    by_cases h1 : c < n
    · by_cases h2 : r = c
      · subst h2; simp [h1]
      · simp [h1, h2, hoff r c hr h1 h2]
    · simp [h1]
  | succ j ih =>
    have hj : j < n := by omega
    have hpiv : pivotState al A n j j j = A j j := by
      rw [ih (by omega) j j hj (by omega)]
      simp [hj]
    have hne : A j j ≠ 0 := by
      intro h0
      have := hdiag j hj
      rw [h0, abs_zero] at this
      exact absurd eps_pos (not_lt.mpr this)
    rw [pivotState_succ, gj_step_apply_ok al n (2 * n) j _ r c
      (by rw [hpiv]; exact not_lt.mpr (hdiag j hj))]
    rw [hpiv, ih (by omega) j c hj hc]
    by_cases h1 : r = j
    · subst h1
      simp only [hc, if_true, lt_add_one, lt_irrefl, if_false]
      by_cases h2 : c < n
      · by_cases h3 : r = c
        · subst h3; simp [h2, div_self hne]
        · simp [h2, h3]
      · by_cases h3 : r + n = c
        · simp [h2, h3]
        · simp [h2, h3]
    · have e1 : pivotState al A n j r j = 0 := by
        rw [ih (by omega) r j hr (by omega)]
        simp [hj, h1]
      have e2 : r < j + 1 ↔ r < j := by omega
      rw [e1, ih (by omega) r c hr hc]
      simp [h1, hr, hc, e2]

/-- C2. Identity round-trip: for every order `n`, once the working buffer is
obtained, `inv_mat` on the identity returns 0 and writes the identity to the
output; at no step does the pivot fail the tolerance test, so `swap_rows` is
never called and nothing is damped. -/
theorem inv_mat_identity (al : Alloc) (op : Mat) (n : Nat)
    (h1 : al.rows = true) (h2 : ∀ i, i < n → al.row i = true) :
    (inv_mat al identity n op).1 = 0
      ∧ (∀ r c, r < n → c < n → (inv_mat al identity n op).2 r c = identity r c)
      ∧ (∀ i, i < n → ¬ (|pivotState al identity n i i i| < eps))
      ∧ neverDamped al identity n := by
  have hoff : ∀ r c, r < n → c < n → r ≠ c → identity r c = 0 := by
    intro r c _ _ hrc
    simp [identity, hrc]
  have hone : (1 : ℚ) / 10 ^ 15 ≤ 1 := by norm_num
  have hdiag : ∀ i, i < n → eps ≤ |identity i i| := by
    intro i _
    simp only [identity, if_true, abs_one, eps]
    exact hone
  have hpiv : ∀ i, i < n → ¬ (|pivotState al identity n i i i| < eps) := by
    intro i hi
    rw [diag_pivotState al identity n hoff hdiag i (by omega) i i hi (by omega)]
    simp only [hi, if_true, lt_irrefl, if_false]
    exact not_lt.mpr (hdiag i hi)
  refine ⟨?_, ?_, hpiv, fun i hi hd => hpiv i hi hd.1⟩
  · rw [inv_mat_of_alloc al _ op n h1 h2]
  · intro r c hr hc
    rw [inv_mat_entry al _ op n h1 h2 r c hr hc,
      diag_pivotState al identity n hoff hdiag n (le_refl n) r (c + n) hr (by omega)]
    have e1 : ¬ (c + n < n) := by omega
    have e2 : r + n = c + n ↔ r = c := by omega
    simp [identity, e1, e2, hr]

/-- C2 at order 3. -/
theorem inv_mat_identity_witness :
    (inv_mat Alloc.ok identity 3 (fun _ _ => 0)).1 = 0
      ∧ (∀ r c, r < 3 → c < 3 →
          (inv_mat Alloc.ok identity 3 (fun _ _ => 0)).2 r c = identity r c)
      ∧ (∀ i, i < 3 → ¬ (|pivotState Alloc.ok identity 3 i i i| < eps))
      ∧ neverDamped Alloc.ok identity 3 :=
  inv_mat_identity Alloc.ok (fun _ _ => 0) 3 rfl (fun _ _ => rfl)

/-- C4. Diagonal matrices: for every order `n` and every input whose
off-diagonal entries are 0 and whose diagonal entries satisfy
`|d_i| >= 1e-15`, once the working buffer is obtained, `inv_mat` returns 0
and writes the diagonal matrix with entries `1 / d_i`. -/
theorem inv_mat_diagonal (al : Alloc) (A op : Mat) (n : Nat)
    (h1 : al.rows = true) (h2 : ∀ i, i < n → al.row i = true)
    (hoff : ∀ r c, r < n → c < n → r ≠ c → A r c = 0)
    (hdiag : ∀ i, i < n → eps ≤ |A i i|) :
    (inv_mat al A n op).1 = 0
      ∧ ∀ r c, r < n → c < n →
          (inv_mat al A n op).2 r c = if r = c then 1 / A r r else 0 := by
  refine ⟨?_, ?_⟩
  · rw [inv_mat_of_alloc al _ op n h1 h2]
  · intro r c hr hc
    rw [inv_mat_entry al _ op n h1 h2 r c hr hc,
      diag_pivotState al A n hoff hdiag n (le_refl n) r (c + n) hr (by omega)]
    have e1 : ¬ (c + n < n) := by omega
    have e2 : r + n = c + n ↔ r = c := by omega
    simp [e1, e2, hr]

/-- C4 at `[[2,0],[0,2]]`: the output is `[[1/2,0],[0,1/2]]`. -/
theorem inv_mat_diagonal_witness :
    (inv_mat Alloc.ok (ofRows [[2, 0], [0, 2]]) 2 (fun _ _ => 0)).1 = 0
      ∧ (inv_mat Alloc.ok (ofRows [[2, 0], [0, 2]]) 2 (fun _ _ => 0)).2 0 0 = 1 / 2
      ∧ (inv_mat Alloc.ok (ofRows [[2, 0], [0, 2]]) 2 (fun _ _ => 0)).2 0 1 = 0
      ∧ (inv_mat Alloc.ok (ofRows [[2, 0], [0, 2]]) 2 (fun _ _ => 0)).2 1 0 = 0
      ∧ (inv_mat Alloc.ok (ofRows [[2, 0], [0, 2]]) 2 (fun _ _ => 0)).2 1 1 = 1 / 2 := by
  have h := inv_mat_diagonal Alloc.ok (ofRows [[2, 0], [0, 2]]) (fun _ _ => 0) 2 rfl
    (fun _ _ => rfl)
    (by intro r c hr hc hrc
        interval_cases r <;> interval_cases c <;> simp [ofRows] at hrc ⊢)
    (by intro i hi
        interval_cases i <;> norm_num [ofRows, eps, le_abs])
  refine ⟨h.1, ?_, ?_, ?_, ?_⟩
  · simpa [ofRows] using h.2 0 0 (by norm_num) (by norm_num)
  · simpa [ofRows] using h.2 0 1 (by norm_num) (by norm_num)
  · simpa [ofRows] using h.2 1 0 (by norm_num) (by norm_num)
  · simpa [ofRows] using h.2 1 1 (by norm_num) (by norm_num)

/-- C5. Dimension 1: for every 1 x 1 input `[[a]]` with `|a| >= 1e-15`, once
the working buffer is obtained, `inv_mat` with order 1 returns 0 and the
output is `[[1 / a]]`. -/
theorem inv_mat_order_one (al : Alloc) (A op : Mat)
    (h1 : al.rows = true) (h2 : al.row 0 = true) (ha : eps ≤ |A 0 0|) :
    (inv_mat al A 1 op).1 = 0 ∧ (inv_mat al A 1 op).2 0 0 = 1 / A 0 0 := by
  have h2a : ∀ i, i < 1 → al.row i = true := by
    intro i hi
    have : i = 0 := by omega
    rw [this]; exact h2
  have hoff : ∀ r c, r < 1 → c < 1 → r ≠ c → A r c = 0 := by
    intro r c hr hc hrc
    omega
  have hdiag : ∀ i, i < 1 → eps ≤ |A i i| := by
    intro i hi
    have : i = 0 := by omega
    rw [this]; exact ha
  refine ⟨?_, ?_⟩
  · rw [inv_mat_of_alloc al _ op 1 h1 h2a]
  · rw [inv_mat_entry al _ op 1 h1 h2a 0 0 (by norm_num) (by norm_num),
      diag_pivotState al A 1 hoff hdiag 1 (le_refl 1) 0 (0 + 1) (by norm_num) (by norm_num)]
    simp

/-- C5 at `[[5]]`: the output is `[[1/5]]`. -/
theorem inv_mat_order_one_witness :
    (inv_mat Alloc.ok (ofRows [[5]]) 1 (fun _ _ => 0)).1 = 0
      ∧ (inv_mat Alloc.ok (ofRows [[5]]) 1 (fun _ _ => 0)).2 0 0 = 1 / 5 := by
  have h := inv_mat_order_one Alloc.ok (ofRows [[5]]) (fun _ _ => 0) rfl rfl
    (by norm_num [ofRows, eps, le_abs])
  refine ⟨h.1, ?_⟩
  simpa [ofRows] using h.2

/-! ## Row operations keep the kernel -/

theorem rowDot_congr (n : Nat) (x y v : Nat → ℚ) (h : ∀ c, c < n → x c = y c) :
    rowDot n x v = rowDot n y v := by
  unfold rowDot
  apply Finset.sum_congr rfl
  intro c hc
  rw [h c (Finset.mem_range.mp hc)]

theorem rowDot_div (n : Nat) (x v : Nat → ℚ) (d : ℚ) :
    rowDot n (fun c => x c / d) v = rowDot n x v / d := by
  unfold rowDot
  rw [Finset.sum_div]
  apply Finset.sum_congr rfl
  intro c _
  ring

theorem rowDot_sub_mul (n : Nat) (x y v : Nat → ℚ) (f : ℚ) :
    rowDot n (fun c => x c - f * y c) v = rowDot n x v - f * rowDot n y v := by
  unfold rowDot
  rw [Finset.mul_sum, ← Finset.sum_sub_distrib]
  apply Finset.sum_congr rfl
  intro c _
  ring

theorem kerInv_augment (n : Nat) (A fresh : Mat) : kerInv n A (augment A n fresh) := by
  intro v hv r hr
  rw [← hv r hr]
  apply rowDot_congr
  intro c hc
  rw [augment_apply]
  simp [hr, hc]

theorem kerInv_fix_pivot (ok : Bool) (n i : Nat) (A W : Mat) (hi : i < n)
    (hW : kerInv n A W) (hnd : ¬ dampedAt ok i W n (2 * n)) :
    kerInv n A (fix_pivot ok i W n (2 * n)) := by
  rcases fix_pivot_cases ok i W n (2 * n) with ⟨_, e⟩ | ⟨hd, _⟩ | ⟨_, _, _, m, m1, m2, _, _, e⟩
  · rw [e]; exact hW
  · exact absurd hd hnd
  · rw [e]
    intro v hv
    apply hW v
    intro r hr
    have hmi : ¬ m = i := by omega
    by_cases h1 : r = i
    · rw [← hv m m2]
      apply rowDot_congr
      intro c hc
      have hc2 : c < 2 * n := by omega
      rw [swap_loop_apply]
      simp [hc2, h1, hmi]
    · by_cases h2 : r = m
      · rw [← hv i hi]
        apply rowDot_congr
        intro c hc
        have hc2 : c < 2 * n := by omega
        rw [swap_loop_apply]
        simp [hc2, h2]
      · rw [← hv r hr]
        apply rowDot_congr
        intro c hc
        have hc2 : c < 2 * n := by omega
        rw [swap_loop_apply]
        simp [hc2, h1, h2]

theorem kerInv_gj_step (al : Alloc) (n i : Nat) (A W : Mat) (hi : i < n)
    (hW : kerInv n A W) (hnd : ¬ dampedAt (al.scratch i) i W n (2 * n)) :
    kerInv n A (gj_step al n (2 * n) i W) := by
  have hF := kerInv_fix_pivot (al.scratch i) n i A W hi hW hnd
  have hp := fix_pivot_ne_zero (al.scratch i) i W n (2 * n) (by omega)
  intro v hv
  apply hF v
  have hrow : rowDot n (fix_pivot (al.scratch i) i W n (2 * n) i) v = 0 := by
    have h0 := hv i hi
    rw [rowDot_congr n _ (fun c => fix_pivot (al.scratch i) i W n (2 * n) i c
        / fix_pivot (al.scratch i) i W n (2 * n) i i) v, rowDot_div] at h0
    · rcases div_eq_zero_iff.mp h0 with h | h
      · exact h
      · exact absurd h hp
    · intro c hc
      have hc2 : c < 2 * n := by omega
      rw [gj_step_apply]
      simp [hc2]
  intro r hr
  by_cases h1 : r = i
  · rw [h1]; exact hrow
  · have h0 := hv r hr
    rw [rowDot_congr n _ (fun c => fix_pivot (al.scratch i) i W n (2 * n) r c
        - (fix_pivot (al.scratch i) i W n (2 * n) r i
            / fix_pivot (al.scratch i) i W n (2 * n) i i)
          * fix_pivot (al.scratch i) i W n (2 * n) i c) v,
      rowDot_sub_mul, hrow, mul_zero, sub_zero] at h0
    · exact h0
    · intro c hc
      have hc2 : c < 2 * n := by omega
      rw [gj_step_apply]
      simp only [h1, hr, hc2, if_false, if_true, and_self]
      ring

theorem kerInv_pivotState (al : Alloc) (A : Mat) (n i : Nat) (hi : i ≤ n)
    (hnd : undampedBefore al A n i) : kerInv n A (pivotState al A n i) := by
  induction i with
  | zero => exact kerInv_augment n A al.fresh
  | succ j ih =>
    rw [pivotState_succ]
    apply kerInv_gj_step al n j A _ (by omega)
    · exact ih (by omega) (fun k hk => hnd k (by omega))
    · exact hnd j (by omega)

/-- A pivot column that is exactly zero from the diagonal down, at a step
reached without damping, yields a non-zero vector annihilated by `A`. -/
theorem kernel_vector_of_zero_column (al : Alloc) (A : Mat) (n i : Nat) (hi : i < n)
    (hnd : undampedBefore al A n i)
    (hz : ∀ k, i ≤ k → k < n → pivotState al A n i k i = 0) :
    ∃ v : Nat → ℚ, v i = 1 ∧ ∀ r, r < n → rowDot n (A r) v = 0 := by
  have hunit := unitCols_pivotState al A n i (by omega)
  have hker := kerInv_pivotState al A n i (by omega) hnd
  refine ⟨fun c => if c = i then 1 else if c < i then - pivotState al A n i c i else 0,
    by simp, ?_⟩
  apply hker
  intro r hr
  unfold rowDot
  have e : ∀ c, c ∈ Finset.range n →
      pivotState al A n i r c
          * (if c = i then 1 else if c < i then - pivotState al A n i c i else 0)
        = (if i = c then pivotState al A n i r i else 0)
          + (if r = c then (if r < i then - pivotState al A n i r i else 0) else 0) := by
    intro c _
    by_cases h1 : c = i
    · subst h1
      by_cases h2 : r = c
      · subst h2; simp
      · simp [h2]
    · have h1b : ¬ i = c := fun h => h1 h.symm
      by_cases h3 : c < i
      · rw [hunit c h3 r hr]
        by_cases h2 : r = c
        · subst h2; simp [h1, h1b, h3]
        · simp [h1, h1b, h2, h3]
      · by_cases h2 : r = c
        · subst h2; simp [h1, h1b, h3]
        · simp [h1, h1b, h2, h3]
  rw [Finset.sum_congr rfl e, Finset.sum_add_distrib, Finset.sum_ite_eq, Finset.sum_ite_eq]
  simp only [Finset.mem_range, hi, hr, if_true]
  by_cases h4 : r < i
  · simp [h4]
  · simp [h4, hz r (by omega) hr]

/-- A non-zero vector annihilated by `A` excludes any inverse of `A`. -/
theorem singular_of_kernel_vector (n : Nat) (A : Mat) (i : Nat) (hi : i < n)
    (v : Nat → ℚ) (hv : v i = 1) (h : ∀ r, r < n → rowDot n (A r) v = 0) :
    (toMatrix n A).det = 0 := by
  apply Matrix.exists_mulVec_eq_zero_iff.mp
  refine ⟨fun j : Fin n => v j.val, ?_, ?_⟩
  · intro h0
    have := congrFun h0 ⟨i, hi⟩
    simp [hv] at this
  · ext r
    simp only [Matrix.mulVec, Matrix.dotProduct, toMatrix, Matrix.of_apply, Pi.zero_apply]
    rw [← Finset.sum_range (fun k => A r.val k * v k)]
    exact h r.val r.isLt

/-! ## Damped steps and small inputs -/

theorem fix_pivot_damped (ok : Bool) (i : Nat) (A : Mat) (R C : Nat)
    (h : dampedAt ok i A R C) : fix_pivot ok i A R C = setEntry A i i eps := by
  rcases fix_pivot_cases ok i A R C with ⟨h0, _⟩ | ⟨_, e⟩ | ⟨_, h0, _⟩
  · exact absurd h.1 h0
  · exact e
  · exact absurd h h0

/-- A pivot step that applies the damping fallback, in closed form. -/
theorem gj_step_apply_damped (al : Alloc) (R C i : Nat) (A : Mat) (r c : Nat)
    (h : dampedAt (al.scratch i) i A R C) :
    gj_step al R C i A r c
      = if r = i then (if c < C then setEntry A i i eps i c / eps else setEntry A i i eps i c)
        else if r < R ∧ c < C then
          setEntry A i i eps r c - setEntry A i i eps r i * (setEntry A i i eps i c / eps)
        else setEntry A i i eps r c := by
  rw [gj_step_apply, fix_pivot_damped _ i A R C h]
  have e : setEntry A i i eps i i = eps := by simp [setEntry]
  rw [e]

/-- A pivot below the tolerance with no usable entry below it is damped,
whether or not the scratch row is obtained. -/
theorem dampedAt_of_small_column (ok : Bool) (i : Nat) (A : Mat) (R C : Nat)
    (hp : |A i i| < eps) (hcol : ∀ m, i < m → m < R → ¬ (|A m i| > eps)) :
    dampedAt ok i A R C := by
  refine ⟨hp, ?_⟩
  cases ok with
  | false => simp [swap_rows]
  | true =>
    have hs : swap_rows true i A R C
        = swap_rows_scan i A C (R - (i + 1)) (i + 1) := by simp [swap_rows]
    rw [hs, swap_rows_scan_fail i A C (R - (i + 1)) (i + 1)
      (fun m m1 m2 => hcol m (by omega) (by omega))]

theorem order_one_state0 (al : Alloc) (A : Mat) (c : Nat) (hc : c < 2) :
    pivotState al A 1 0 0 c = if c = 0 then A 0 0 else 1 := by
  show augment A 1 al.fresh 0 c = _
  rw [augment_apply]
  interval_cases c <;> simp

/-- Order 1 with a pivot passing the tolerance test: no damping, output `1 / a`. -/
theorem order_one_undamped (al : Alloc) (A op : Mat)
    (h1 : al.rows = true) (h2 : al.row 0 = true) (ha : eps ≤ |A 0 0|) :
    neverDamped al A 1 ∧ (inv_mat al A 1 op).2 0 0 = 1 / A 0 0 := by
  have h2a : ∀ i, i < 1 → al.row i = true := by
    intro i hi
    have : i = 0 := by omega
    rw [this]; exact h2
  have hp : ¬ (|pivotState al A 1 0 0 0| < eps) := by
    rw [order_one_state0 al A 0 (by norm_num)]
    simpa using ha
  refine ⟨?_, ?_⟩
  · intro i hi hd
    have e : i = 0 := by omega
    subst e
    exact hp hd.1
  · rw [inv_mat_entry al _ op 1 h1 h2a 0 0 (by norm_num) (by norm_num), pivotState_succ,
      gj_step_apply_ok al 1 (2 * 1) 0 _ 0 (0 + 1) hp,
      order_one_state0 al A 1 (by norm_num), order_one_state0 al A 0 (by norm_num)]
    simp

/-- Order 1 with a pivot below the tolerance: the step is damped and the
output is `1 / 1e-15`. -/
theorem order_one_damped (al : Alloc) (A op : Mat)
    (h1 : al.rows = true) (h2 : al.row 0 = true) (ha : |A 0 0| < eps) :
    dampedAt (al.scratch 0) 0 (pivotState al A 1 0) 1 (2 * 1)
      ∧ (inv_mat al A 1 op).2 0 0 = 1 / eps := by
  have h2a : ∀ i, i < 1 → al.row i = true := by
    intro i hi
    have : i = 0 := by omega
    rw [this]; exact h2
  have hd : dampedAt (al.scratch 0) 0 (pivotState al A 1 0) 1 (2 * 1) := by
    apply dampedAt_of_small_column
    · rw [order_one_state0 al A 0 (by norm_num)]
      simpa using ha
    · intro m m1 m2
      omega
  refine ⟨hd, ?_⟩
  rw [inv_mat_entry al _ op 1 h1 h2a 0 0 (by norm_num) (by norm_num), pivotState_succ,
    gj_step_apply_damped al 1 (2 * 1) 0 _ 0 (0 + 1) hd]
  simp [setEntry, order_one_state0 al A 1 (by norm_num)]

theorem diag_neverDamped (al : Alloc) (A : Mat) (n : Nat)
    (hoff : ∀ r c, r < n → c < n → r ≠ c → A r c = 0)
    (hdiag : ∀ i, i < n → eps ≤ |A i i|) : neverDamped al A n := by
  intro i hi hd
  have h := hd.1
  rw [diag_pivotState al A n hoff hdiag i (by omega) i i hi (by omega)] at h
  simp only [hi, if_true, lt_irrefl, if_false] at h
  exact absurd h (not_lt.mpr (hdiag i hi))

theorem toMatrix_smulMat (n : Nat) (c : ℚ) (A : Mat) :
    toMatrix n (smulMat c A) = c • toMatrix n A := by
  ext r k
  simp [toMatrix, smulMat]

/-! ## The singular example `[[1,2],[2,4]]` -/

theorem sing_state0 (al : Alloc) (r c : Nat) (hr : r < 2) (hc : c < 4) :
    pivotState al (ofRows [[1, 2], [2, 4]]) 2 0 r c
      = ofRows [[1, 2, 1, 0], [2, 4, 0, 1]] r c := by
  show augment _ 2 al.fresh r c = _
  rw [augment_apply]
  interval_cases r <;> interval_cases c <;> simp [ofRows]

theorem sing_state1 (al : Alloc) (r c : Nat) (hr : r < 2) (hc : c < 4) :
    pivotState al (ofRows [[1, 2], [2, 4]]) 2 1 r c
      = ofRows [[1, 2, 1, 0], [0, 0, -2, 1]] r c := by
  rw [pivotState_succ, gj_step_apply_ok]
  · interval_cases r <;> interval_cases c <;> norm_num [sing_state0, ofRows]
  · rw [sing_state0 al 0 0 (by norm_num) (by norm_num)]
    norm_num [ofRows, eps, abs_lt]

theorem sing_undampedBefore (al : Alloc) :
    undampedBefore al (ofRows [[1, 2], [2, 4]]) 2 1 := by
  intro j hj hd
  have e : j = 0 := by omega
  subst e
  have h := hd.1
  rw [sing_state0 al 0 0 (by norm_num) (by norm_num)] at h
  norm_num [ofRows, eps, abs_lt] at h

theorem sing_damped (al : Alloc) :
    dampedAt (al.scratch 1) 1 (pivotState al (ofRows [[1, 2], [2, 4]]) 2 1) 2 (2 * 2) := by
  apply dampedAt_of_small_column
  · rw [sing_state1 al 1 1 (by norm_num) (by norm_num)]
    norm_num [ofRows, eps]
  · intro m m1 m2
    omega

/-! ## Scaling and double inversion -/

/-- C6, the claim as stated fails: `A = [[1]]` is inverted without damping
and `c = 1e-16` is non-zero, yet `inv_mat (c x A)` is `[[1e15]]` (the pivot
`1e-16` is damped) while `(1/c) x inv_mat A` is `[[1e16]]`. -/
theorem scaling_counterexample :
    (1 / 10 ^ 16 : ℚ) ≠ 0
      ∧ neverDamped Alloc.ok (ofRows [[1]]) 1
      ∧ (inv_mat Alloc.ok (smulMat (1 / 10 ^ 16) (ofRows [[1]])) 1 (fun _ _ => 0)).2 0 0
          ≠ 1 / (1 / 10 ^ 16) * (inv_mat Alloc.ok (ofRows [[1]]) 1 (fun _ _ => 0)).2 0 0 := by
  have hA := order_one_undamped Alloc.ok (ofRows [[1]]) (fun _ _ => 0) rfl rfl
    (by norm_num [ofRows, eps, le_abs])
  have hcA := order_one_damped Alloc.ok (smulMat (1 / 10 ^ 16) (ofRows [[1]]))
    (fun _ _ => 0) rfl rfl (by norm_num [smulMat, ofRows, eps, abs_lt])
  refine ⟨by norm_num, hA.1, ?_⟩
  rw [hA.2, hcA.2]
  norm_num [ofRows, eps]

/-- C6, amended. Scaling property: for `c` non-zero, when the runs on `A`
and on `c x A` both obtain their working buffer and neither applies the
damping fallback, `inv_mat (c x A)` equals `(1/c) x inv_mat A` entrywise. -/
theorem inv_mat_scaling (al al2 : Alloc) (A op op2 : Mat) (n : Nat) (c : ℚ)
    (hc : c ≠ 0)
    (h1 : al.rows = true) (h2 : ∀ i, i < n → al.row i = true)
    (k1 : al2.rows = true) (k2 : ∀ i, i < n → al2.row i = true)
    (hA : neverDamped al A n) (hcA : neverDamped al2 (smulMat c A) n) :
    ∀ r k, r < n → k < n →
      (inv_mat al2 (smulMat c A) n op2).2 r k = 1 / c * (inv_mat al A n op).2 r k := by
  have e1 := inv_mat_left_inverse al A op n h1 h2 hA
  have e2 := inv_mat_left_inverse al2 (smulMat c A) op2 n k1 k2 hcA
  have e3 := Matrix.mul_eq_one_comm.mp e1
  rw [toMatrix_smulMat, Matrix.mul_smul] at e2
  have key : toMatrix n (inv_mat al2 (smulMat c A) n op2).2
      = c⁻¹ • toMatrix n (inv_mat al A n op).2 := by
    calc toMatrix n (inv_mat al2 (smulMat c A) n op2).2
        = toMatrix n (inv_mat al2 (smulMat c A) n op2).2
            * (toMatrix n A * toMatrix n (inv_mat al A n op).2) := by rw [e3, mul_one]
      _ = c⁻¹ • (c • (toMatrix n (inv_mat al2 (smulMat c A) n op2).2 * toMatrix n A))
            * toMatrix n (inv_mat al A n op).2 := by
          rw [smul_smul, inv_mul_cancel₀ hc, one_smul, mul_assoc]
      _ = c⁻¹ • toMatrix n (inv_mat al A n op).2 := by
          rw [e2, Matrix.smul_mul, one_mul]
  intro r k hr hk
  have := congrFun (congrFun key ⟨r, hr⟩) ⟨k, hk⟩
  simpa [toMatrix] using this

/-- C6 amended, at `A = [[2,0],[0,2]]` and `c = 3`. -/
theorem inv_mat_scaling_witness :
    (inv_mat Alloc.ok (smulMat 3 (ofRows [[2, 0], [0, 2]])) 2 (fun _ _ => 0)).2 0 0
        = 1 / 3 * (inv_mat Alloc.ok (ofRows [[2, 0], [0, 2]]) 2 (fun _ _ => 0)).2 0 0
      ∧ (inv_mat Alloc.ok (smulMat 3 (ofRows [[2, 0], [0, 2]])) 2 (fun _ _ => 0)).2 0 1
        = 1 / 3 * (inv_mat Alloc.ok (ofRows [[2, 0], [0, 2]]) 2 (fun _ _ => 0)).2 0 1
      ∧ (inv_mat Alloc.ok (smulMat 3 (ofRows [[2, 0], [0, 2]])) 2 (fun _ _ => 0)).2 1 0
        = 1 / 3 * (inv_mat Alloc.ok (ofRows [[2, 0], [0, 2]]) 2 (fun _ _ => 0)).2 1 0
      ∧ (inv_mat Alloc.ok (smulMat 3 (ofRows [[2, 0], [0, 2]])) 2 (fun _ _ => 0)).2 1 1
        = 1 / 3 * (inv_mat Alloc.ok (ofRows [[2, 0], [0, 2]]) 2 (fun _ _ => 0)).2 1 1 := by
  have h := inv_mat_scaling Alloc.ok Alloc.ok (ofRows [[2, 0], [0, 2]]) (fun _ _ => 0)
    (fun _ _ => 0) 2 3 (by norm_num) rfl (fun _ _ => rfl) rfl (fun _ _ => rfl)
    (diag_neverDamped Alloc.ok _ 2
      (by intro r c hr hc hrc
          interval_cases r <;> interval_cases c <;> simp [ofRows] at hrc ⊢)
      (by intro i hi
          interval_cases i <;> norm_num [ofRows, eps, le_abs]))
    (diag_neverDamped Alloc.ok _ 2
      (by intro r c hr hc hrc
          interval_cases r <;> interval_cases c <;> simp [smulMat, ofRows] at hrc ⊢)
      (by intro i hi
          interval_cases i <;> norm_num [smulMat, ofRows, eps, le_abs]))
  exact ⟨h 0 0 (by norm_num) (by norm_num), h 0 1 (by norm_num) (by norm_num),
    h 1 0 (by norm_num) (by norm_num), h 1 1 (by norm_num) (by norm_num)⟩

/-- C7, the claim as stated fails: `A = [[1e16]]` is inverted without
damping to `[[1e-16]]`, whose own inversion is damped and gives `[[1e15]]`,
not `A`. -/
theorem double_inversion_counterexample :
    neverDamped Alloc.ok (ofRows [[10 ^ 16]]) 1
      ∧ (inv_mat Alloc.ok
            (inv_mat Alloc.ok (ofRows [[10 ^ 16]]) 1 (fun _ _ => 0)).2 1 (fun _ _ => 0)).2 0 0
          ≠ ofRows [[10 ^ 16]] 0 0 := by
  have hA := order_one_undamped Alloc.ok (ofRows [[10 ^ 16]]) (fun _ _ => 0) rfl rfl
    (by norm_num [ofRows, eps, le_abs])
  have hB := order_one_damped Alloc.ok
    (inv_mat Alloc.ok (ofRows [[10 ^ 16]]) 1 (fun _ _ => 0)).2 (fun _ _ => 0) rfl rfl
    (by rw [hA.2]; norm_num [ofRows, eps, abs_lt])
  refine ⟨hA.1, ?_⟩
  rw [hB.2]
  norm_num [ofRows, eps]

/-- C7, amended. Double-inversion law: when the run on `A` and the run on
its output both obtain their working buffer and neither applies the damping
fallback, `inv_mat` applied to the output of `inv_mat A` returns `A`
entrywise. -/
theorem inv_mat_double_inversion (al al2 : Alloc) (A op op2 : Mat) (n : Nat)
    (h1 : al.rows = true) (h2 : ∀ i, i < n → al.row i = true)
    (k1 : al2.rows = true) (k2 : ∀ i, i < n → al2.row i = true)
    (hA : neverDamped al A n) (hB : neverDamped al2 (inv_mat al A n op).2 n) :
    ∀ r k, r < n → k < n →
      (inv_mat al2 (inv_mat al A n op).2 n op2).2 r k = A r k := by
  have e1 := inv_mat_left_inverse al A op n h1 h2 hA
  have e2 := inv_mat_left_inverse al2 (inv_mat al A n op).2 op2 n k1 k2 hB
  have key : toMatrix n (inv_mat al2 (inv_mat al A n op).2 n op2).2 = toMatrix n A := by
    calc toMatrix n (inv_mat al2 (inv_mat al A n op).2 n op2).2
        = toMatrix n (inv_mat al2 (inv_mat al A n op).2 n op2).2
            * (toMatrix n (inv_mat al A n op).2 * toMatrix n A) := by rw [e1, mul_one]
      _ = toMatrix n A := by rw [← mul_assoc, e2, one_mul]
  intro r k hr hk
  have := congrFun (congrFun key ⟨r, hr⟩) ⟨k, hk⟩
  simpa [toMatrix] using this

/-- C7 amended, at `A = [[5]]`. -/
theorem inv_mat_double_inversion_witness :
    (inv_mat Alloc.ok (inv_mat Alloc.ok (ofRows [[5]]) 1 (fun _ _ => 0)).2 1
        (fun _ _ => 0)).2 0 0 = ofRows [[5]] 0 0 :=
  inv_mat_double_inversion Alloc.ok Alloc.ok (ofRows [[5]]) (fun _ _ => 0) (fun _ _ => 0) 1
    rfl (fun _ _ => rfl) rfl (fun _ _ => rfl)
    (order_one_undamped Alloc.ok (ofRows [[5]]) (fun _ _ => 0) rfl rfl
      (by norm_num [ofRows, eps, le_abs])).1
    (order_one_undamped Alloc.ok _ (fun _ _ => 0) rfl rfl
      (by rw [(order_one_undamped Alloc.ok (ofRows [[5]]) (fun _ _ => 0) rfl rfl
            (by norm_num [ofRows, eps, le_abs])).2]
          norm_num [ofRows, eps, le_abs])).1
    0 0 (by norm_num) (by norm_num)

/-! ## Status codes -/

/-- C8, the claim as stated fails: on the singular `[[1,2],[2,4]]` the status
returned is not different from the one returned on the invertible
`[[4,7],[2,6]]`. -/
theorem singular_status_counterexample :
    ¬ ((inv_mat Alloc.ok (ofRows [[1, 2], [2, 4]]) 2 (fun _ _ => 0)).1
        ≠ (inv_mat Alloc.ok (ofRows [[4, 7], [2, 6]]) 2 (fun _ _ => 0)).1) := by
  rw [inv_mat_of_alloc Alloc.ok _ _ 2 rfl (fun _ _ => rfl),
    inv_mat_of_alloc Alloc.ok _ _ 2 rfl (fun _ _ => rfl)]
  simp

/-- C8, amended. Singular input is not reported: once the working buffer is
obtained, `inv_mat` on the singular `[[1,2],[2,4]]` damps pivot step 1 and
still returns the status 0, the same status it returns on the invertible
`[[4,7],[2,6]]`, where no step is damped. -/
theorem singular_status_zero (al : Alloc) (op : Mat)
    (h1 : al.rows = true) (h2 : ∀ i, i < 2 → al.row i = true) :
    (inv_mat al (ofRows [[1, 2], [2, 4]]) 2 op).1 = 0
      ∧ dampedAt (al.scratch 1) 1 (pivotState al (ofRows [[1, 2], [2, 4]]) 2 1) 2 (2 * 2)
      ∧ (inv_mat al (ofRows [[4, 7], [2, 6]]) 2 op).1 = 0
      ∧ neverDamped al (ofRows [[4, 7], [2, 6]]) 2 := by
  refine ⟨?_, sing_damped al, ?_, ex_neverDamped al⟩
  · rw [inv_mat_of_alloc al _ op 2 h1 h2]
  · rw [inv_mat_of_alloc al _ op 2 h1 h2]

/-- C8 amended, with every allocation succeeding. -/
theorem singular_status_zero_witness :
    (inv_mat Alloc.ok (ofRows [[1, 2], [2, 4]]) 2 (fun _ _ => 0)).1 = 0
      ∧ dampedAt (Alloc.ok.scratch 1) 1
          (pivotState Alloc.ok (ofRows [[1, 2], [2, 4]]) 2 1) 2 (2 * 2)
      ∧ (inv_mat Alloc.ok (ofRows [[4, 7], [2, 6]]) 2 (fun _ _ => 0)).1 = 0
      ∧ neverDamped Alloc.ok (ofRows [[4, 7], [2, 6]]) 2 :=
  singular_status_zero Alloc.ok (fun _ _ => 0) rfl (fun _ _ => rfl)

/-! ## Allocation failure -/

/-- When the row-pointer array or one of the augmented rows is refused,
`inv_mat` returns 99 and leaves the output as it was. -/
theorem inv_mat_buffer_failure (al : Alloc) (A op : Mat) (n : Nat)
    (h : al.rows = false ∨ ∃ i, i < n ∧ al.row i = false) :
    inv_mat al A n op = (99, op) := by
  rcases h with h | ⟨i, hi, h⟩
  · simp [inv_mat, h]
  · have h3 : alloc_rows al n = false := by
      cases e : alloc_rows al n with
      | false => rfl
      | true =>
        have := (alloc_rows_eq_true al n).mp e i hi
        rw [h] at this
        exact absurd this (by decide)
    simp [inv_mat, h3]

theorem swapfail_state0 (r c : Nat) (hr : r < 2) (hc : c < 4) :
    pivotState Alloc.noScratch (ofRows [[0, 1], [1, 0]]) 2 0 r c
      = ofRows [[0, 1, 1, 0], [1, 0, 0, 1]] r c := by
  show augment _ 2 Alloc.noScratch.fresh r c = _
  rw [augment_apply]
  interval_cases r <;> interval_cases c <;> simp [ofRows]

theorem swapfail_damped :
    dampedAt (Alloc.noScratch.scratch 0) 0
      (pivotState Alloc.noScratch (ofRows [[0, 1], [1, 0]]) 2 0) 2 (2 * 2) := by
  refine ⟨?_, ?_⟩
  · rw [swapfail_state0 0 0 (by norm_num) (by norm_num)]
    norm_num [ofRows, eps]
  · simp [swap_rows, Alloc.noScratch]

theorem swapfail_state1 (r c : Nat) (hr : r < 2) (hc : c < 4) :
    pivotState Alloc.noScratch (ofRows [[0, 1], [1, 0]]) 2 1 r c
      = ofRows [[1, 10 ^ 15, 10 ^ 15, 0], [0, -10 ^ 15, -10 ^ 15, 1]] r c := by
  rw [pivotState_succ, gj_step_apply_damped _ _ _ _ _ _ _ swapfail_damped]
  interval_cases r <;> interval_cases c <;>
    norm_num [setEntry, swapfail_state0, ofRows, eps]

theorem swapfail_state2 (r c : Nat) (hr : r < 2) (hc : c < 4) :
    pivotState Alloc.noScratch (ofRows [[0, 1], [1, 0]]) 2 2 r c
      = ofRows [[1, 0, 0, 1], [0, 1, 1, -(1 / 10 ^ 15)]] r c := by
  rw [pivotState_succ, gj_step_apply_ok]
  · interval_cases r <;> interval_cases c <;> norm_num [swapfail_state1, ofRows]
  · rw [swapfail_state1 1 1 (by norm_num) (by norm_num)]
    norm_num [ofRows, eps, abs_lt]

/-- C9, the failing run: on the invertible `[[0,1],[1,0]]` the scratch row
of `swap_rows` is refused at pivot step 0; `inv_mat` nevertheless returns 0
and overwrites the zeroed output with `[[0,1],[1,-1e-15]]`. -/
theorem scratch_failure_unreported :
    Alloc.noScratch.scratch 0 = false
      ∧ (inv_mat Alloc.noScratch (ofRows [[0, 1], [1, 0]]) 2 (fun _ _ => 0)).1 = 0
      ∧ (inv_mat Alloc.noScratch (ofRows [[0, 1], [1, 0]]) 2 (fun _ _ => 0)).2 0 0 = 0
      ∧ (inv_mat Alloc.noScratch (ofRows [[0, 1], [1, 0]]) 2 (fun _ _ => 0)).2 0 1 = 1
      ∧ (inv_mat Alloc.noScratch (ofRows [[0, 1], [1, 0]]) 2 (fun _ _ => 0)).2 1 0 = 1
      ∧ (inv_mat Alloc.noScratch (ofRows [[0, 1], [1, 0]]) 2 (fun _ _ => 0)).2 1 1
          = -(1 / 10 ^ 15) := by
  have h1 : Alloc.noScratch.rows = true := rfl
  have h2 : ∀ i, i < 2 → Alloc.noScratch.row i = true := fun _ _ => rfl
  refine ⟨rfl, ?_, ?_, ?_, ?_, ?_⟩
  · rw [inv_mat_of_alloc _ _ _ 2 h1 h2]
  · rw [inv_mat_entry _ _ _ 2 h1 h2 0 0 (by norm_num) (by norm_num),
      swapfail_state2 0 2 (by norm_num) (by norm_num)]
    norm_num [ofRows]
  · rw [inv_mat_entry _ _ _ 2 h1 h2 0 1 (by norm_num) (by norm_num),
      swapfail_state2 0 3 (by norm_num) (by norm_num)]
    norm_num [ofRows]
  · rw [inv_mat_entry _ _ _ 2 h1 h2 1 0 (by norm_num) (by norm_num),
      swapfail_state2 1 2 (by norm_num) (by norm_num)]
    norm_num [ofRows]
  · rw [inv_mat_entry _ _ _ 2 h1 h2 1 1 (by norm_num) (by norm_num),
      swapfail_state2 1 3 (by norm_num) (by norm_num)]
    norm_num [ofRows]

/-! ## Damping and singularity -/

theorem tiny_state0 (al : Alloc) (r c : Nat) (hr : r < 2) (hc : c < 4) :
    pivotState al (ofRows [[1 / 10 ^ 16, 1], [1 / 10 ^ 15, 1]]) 2 0 r c
      = ofRows [[1 / 10 ^ 16, 1, 1, 0], [1 / 10 ^ 15, 1, 0, 1]] r c := by
  show augment _ 2 al.fresh r c = _
  rw [augment_apply]
  interval_cases r <;> interval_cases c <;> simp [ofRows]

theorem tiny_damped0 (al : Alloc) :
    dampedAt (al.scratch 0) 0
      (pivotState al (ofRows [[1 / 10 ^ 16, 1], [1 / 10 ^ 15, 1]]) 2 0) 2 (2 * 2) := by
  apply dampedAt_of_small_column
  · rw [tiny_state0 al 0 0 (by norm_num) (by norm_num)]
    norm_num [ofRows, eps, abs_lt]
  · intro m m1 m2
    have e : m = 1 := by omega
    subst e
    rw [tiny_state0 al 1 0 (by norm_num) (by norm_num)]
    norm_num [ofRows, eps, abs_of_pos]

theorem tiny_state1 (al : Alloc) (r c : Nat) (hr : r < 2) (hc : c < 4) :
    pivotState al (ofRows [[1 / 10 ^ 16, 1], [1 / 10 ^ 15, 1]]) 2 1 r c
      = ofRows [[1, 10 ^ 15, 10 ^ 15, 0], [0, 0, -1, 1]] r c := by
  rw [pivotState_succ, gj_step_apply_damped _ _ _ _ _ _ _ (tiny_damped0 al)]
  have h00 := tiny_state0 al 0 0 (by norm_num) (by norm_num)
  have h01 := tiny_state0 al 0 1 (by norm_num) (by norm_num)
  have h02 := tiny_state0 al 0 2 (by norm_num) (by norm_num)
  have h03 := tiny_state0 al 0 3 (by norm_num) (by norm_num)
  have h10 := tiny_state0 al 1 0 (by norm_num) (by norm_num)
  have h11 := tiny_state0 al 1 1 (by norm_num) (by norm_num)
  have h12 := tiny_state0 al 1 2 (by norm_num) (by norm_num)
  have h13 := tiny_state0 al 1 3 (by norm_num) (by norm_num)
  interval_cases r <;> interval_cases c <;>
    simp only [setEntry, h00, h01, h02, h03, h10, h11, h12, h13] <;>
    norm_num [ofRows, eps]

/-- Why only the first damped step is informative: on the invertible
`[[1e-16, 1], [1e-15, 1]]` step 0 is damped on a small non-zero pivot, after
which step 1 meets a pivot that is exactly 0 and is damped as well. -/
theorem zero_pivot_after_damping :
    dampedAt (Alloc.ok.scratch 0) 0
        (pivotState Alloc.ok (ofRows [[1 / 10 ^ 16, 1], [1 / 10 ^ 15, 1]]) 2 0) 2 (2 * 2)
      ∧ pivotState Alloc.ok (ofRows [[1 / 10 ^ 16, 1], [1 / 10 ^ 15, 1]]) 2 1 1 1 = 0
      ∧ dampedAt (Alloc.ok.scratch 1) 1
        (pivotState Alloc.ok (ofRows [[1 / 10 ^ 16, 1], [1 / 10 ^ 15, 1]]) 2 1) 2 (2 * 2)
      ∧ (toMatrix 2 (ofRows [[1 / 10 ^ 16, 1], [1 / 10 ^ 15, 1]])).det ≠ 0 := by
  have h11 : pivotState Alloc.ok (ofRows [[1 / 10 ^ 16, 1], [1 / 10 ^ 15, 1]]) 2 1 1 1 = 0 := by
    rw [tiny_state1 Alloc.ok 1 1 (by norm_num) (by norm_num)]
    norm_num [ofRows]
  refine ⟨tiny_damped0 Alloc.ok, h11, ?_, ?_⟩
  · apply dampedAt_of_small_column
    · rw [h11, abs_zero]; exact eps_pos
    · intro m m1 m2
      omega
  · rw [Matrix.det_fin_two]
    norm_num [toMatrix, ofRows]

/-- C10, the claim as stated fails: on `[[1e-16]]` the only pivot step is
damped (the pivot is below the tolerance and there is no row below), yet the
matrix has the inverse `[[1e16]]`. -/
theorem damping_counterexample :
    dampedAt (Alloc.ok.scratch 0) 0
        (pivotState Alloc.ok (ofRows [[1 / 10 ^ 16]]) 1 0) 1 (2 * 1)
      ∧ toMatrix 1 (ofRows [[1 / 10 ^ 16]]) * toMatrix 1 (ofRows [[10 ^ 16]]) = 1 := by
  refine ⟨(order_one_damped Alloc.ok (ofRows [[1 / 10 ^ 16]]) (fun _ _ => 0) rfl rfl
    (by norm_num [ofRows, eps, abs_lt])).1, ?_⟩
  ext r c
  have hr : r = 0 := Subsingleton.elim _ _
  have hc : c = 0 := Subsingleton.elim _ _
  subst hr; subst hc
  simp [Matrix.mul_apply, toMatrix, ofRows]

/-- C10, amended. At the first pivot step `i` at which the pivot and every
entry below it in column `i` are exactly 0, no earlier step having been
damped, the damping fallback is taken and `A` is singular: its determinant
is 0 and it has no inverse. -/
theorem damping_exact_zero_singular (al : Alloc) (A : Mat) (n i : Nat) (hi : i < n)
    (hnd : undampedBefore al A n i)
    (hz : ∀ k, i ≤ k → k < n → pivotState al A n i k i = 0) :
    dampedAt (al.scratch i) i (pivotState al A n i) n (2 * n)
      ∧ (toMatrix n A).det = 0
      ∧ ¬ ∃ B : Matrix (Fin n) (Fin n) ℚ, toMatrix n A * B = 1 := by
  obtain ⟨v, hv1, hv2⟩ := kernel_vector_of_zero_column al A n i hi hnd hz
  have hdet := singular_of_kernel_vector n A i hi v hv1 hv2
  refine ⟨?_, hdet, ?_⟩
  · apply dampedAt_of_small_column
    · rw [hz i (le_refl i) hi, abs_zero]
      exact eps_pos
    · intro m m1 m2
      rw [hz m (by omega) m2, abs_zero]
      exact not_lt.mpr (le_of_lt eps_pos)
  · rintro ⟨B, hB⟩
    exact Matrix.det_ne_zero_of_right_inverse hB hdet

/-- C10 amended, at `[[1,2],[2,4]]` and pivot step 1. -/
theorem damping_exact_zero_singular_witness :
    dampedAt (Alloc.ok.scratch 1) 1
        (pivotState Alloc.ok (ofRows [[1, 2], [2, 4]]) 2 1) 2 (2 * 2)
      ∧ (toMatrix 2 (ofRows [[1, 2], [2, 4]])).det = 0
      ∧ ¬ ∃ B : Matrix (Fin 2) (Fin 2) ℚ, toMatrix 2 (ofRows [[1, 2], [2, 4]]) * B = 1 :=
  damping_exact_zero_singular Alloc.ok (ofRows [[1, 2], [2, 4]]) 2 1 (by norm_num)
    (sing_undampedBefore Alloc.ok)
    (by intro k k1 k2
        have e : k = 1 := by omega
        subst e
        rw [sing_state1 Alloc.ok 1 1 (by norm_num) (by norm_num)]
        norm_num [ofRows])

/-! ## The divisor and the reduced left half on every input -/

theorem unitCols_afterSteps (al : Alloc) (A : Mat) (n i : Nat) (hi : i ≤ n) :
    unitCols n i (afterSteps al A n (2 * n) i) := by
  induction i with
  | zero => intro c hc; omega
  | succ j ih =>
    show unitCols n (j + 1) (gj_step al n (2 * n) j (afterSteps al A n (2 * n) j))
    exact unitCols_gj_step al n j _ (by omega) (ih (by omega))

/-- C11. The divisor is never zero: for every working matrix `W` with `R`
rows and `2R` columns and every pivot step `i < R`, the step scales row `i`
by `div_val`, the pivot read after the near-zero handling, and
`|div_val| >= 1e-15`; in particular `div_val` is not 0. -/
theorem div_val_never_zero (al : Alloc) (W : Mat) (R i : Nat) (hi : i < R) :
    gj_step al R (2 * R) i W
        = forLoop (eliminate_row i (2 * R)) R
            (scale_row i (scaling_div_val al R (2 * R) i W) (2 * R)
              (fix_pivot (al.scratch i) i W R (2 * R)))
      ∧ eps ≤ |scaling_div_val al R (2 * R) i W|
      ∧ scaling_div_val al R (2 * R) i W ≠ 0 :=
  ⟨rfl, fix_pivot_pivot (al.scratch i) i W R (2 * R) (by omega),
    fix_pivot_ne_zero (al.scratch i) i W R (2 * R) (by omega)⟩

/-- C11 at the damped step 1 of the run on `[[1,2],[2,4]]`. -/
theorem div_val_never_zero_witness :
    gj_step Alloc.ok 2 (2 * 2) 1 (pivotState Alloc.ok (ofRows [[1, 2], [2, 4]]) 2 1)
        = forLoop (eliminate_row 1 (2 * 2)) 2
            (scale_row 1
              (scaling_div_val Alloc.ok 2 (2 * 2) 1
                (pivotState Alloc.ok (ofRows [[1, 2], [2, 4]]) 2 1)) (2 * 2)
              (fix_pivot (Alloc.ok.scratch 1) 1
                (pivotState Alloc.ok (ofRows [[1, 2], [2, 4]]) 2 1) 2 (2 * 2)))
      ∧ eps ≤ |scaling_div_val Alloc.ok 2 (2 * 2) 1
                (pivotState Alloc.ok (ofRows [[1, 2], [2, 4]]) 2 1)|
      ∧ scaling_div_val Alloc.ok 2 (2 * 2) 1
          (pivotState Alloc.ok (ofRows [[1, 2], [2, 4]]) 2 1) ≠ 0 :=
  div_val_never_zero Alloc.ok (pivotState Alloc.ok (ofRows [[1, 2], [2, 4]]) 2 1) 2 1
    (by norm_num)

/-- C12. Left half reduced to the identity on every input: started on any
working matrix `W` with `R` rows and `2R` columns, after pivot step `i` the
columns `0..i` are the unit vectors `e_0..e_i`, and after the last step the
left `R x R` block is the identity, whatever swaps or damping occurred. -/
theorem left_half_identity (al : Alloc) (W : Mat) (R : Nat) :
    (∀ i, i < R → ∀ c, c ≤ i → ∀ r, r < R →
        afterSteps al W R (2 * R) (i + 1) r c = if r = c then 1 else 0)
      ∧ (∀ r c, r < R → c < R →
          gauss_jordan al W R (2 * R) r c = if r = c then 1 else 0)
      ∧ toMatrix R (gauss_jordan al W R (2 * R)) = 1 := by
  have hfin : ∀ r c, r < R → c < R →
      gauss_jordan al W R (2 * R) r c = if r = c then 1 else 0 := by
    intro r c hr hc
    exact unitCols_afterSteps al W R R (le_refl R) c hc r hr
  refine ⟨?_, hfin, ?_⟩
  · intro i hi c hc r hr
    exact unitCols_afterSteps al W R (i + 1) (by omega) c (by omega) r hr
  · ext r c
    rw [Matrix.one_apply]
    simp only [toMatrix, Matrix.of_apply]
    rw [hfin r.val c.val r.isLt c.isLt]
    simp [Fin.ext_iff]

/-! ## `swap_rows` -/

theorem swap_rows_true (row_num : Nat) (A : Mat) (R C : Nat) :
    swap_rows true row_num A R C
      = swap_rows_scan row_num A C (R - (row_num + 1)) (row_num + 1) := by
  simp [swap_rows]

/-- C13. The function `swap_rows` on success: when the scratch row is
obtained and some row `m` with `row_num < m < R` has
`|A[m][row_num]| > 1e-15`, `swap_rows` returns 0 and the matrix afterwards is
the original with rows `row_num` and `m0` exchanged across the `C` columns,
`m0` being the smallest such row; every other row is unchanged. -/
theorem swap_rows_success (row_num : Nat) (A : Mat) (R C : Nat)
    (h : ∃ m, row_num < m ∧ m < R ∧ |A m row_num| > eps) :
    ∃ m0, row_num < m0 ∧ m0 < R ∧ |A m0 row_num| > eps
      ∧ (∀ k, row_num < k → k < m0 → ¬ (|A k row_num| > eps))
      ∧ (swap_rows true row_num A R C).1 = 0
      ∧ ∀ r c, (swap_rows true row_num A R C).2 r c
          = if c < C then
              (if r = row_num then A m0 c else if r = m0 then A row_num c else A r c)
            else A r c := by
  obtain ⟨m, hm1, hm2, hm3⟩ := h
  rcases swap_rows_scan_cases row_num A C (R - (row_num + 1)) (row_num + 1) with
    ⟨hall, _⟩ | ⟨m0, a1, a2, a3, a4, hres⟩
  · exact absurd hm3 (hall m (by omega) (by omega))
  · refine ⟨m0, by omega, by omega, a3, fun k k1 k2 => a4 k (by omega) k2, ?_, ?_⟩
    · rw [swap_rows_true, hres]
    · intro r c
      rw [swap_rows_true, hres]
      show forLoop (swap_entry row_num m0) C A r c = _
      rw [swap_loop_apply]

/-- C13 on the three rows `[0,1]`, `[0,2]`, `[3,4]`: rows 0 and 2 are
exchanged. -/
theorem swap_rows_success_witness :
    ∃ m0, 0 < m0 ∧ m0 < 3 ∧ |ofRows [[0, 1], [0, 2], [3, 4]] m0 0| > eps
      ∧ (∀ k, 0 < k → k < m0 → ¬ (|ofRows [[0, 1], [0, 2], [3, 4]] k 0| > eps))
      ∧ (swap_rows true 0 (ofRows [[0, 1], [0, 2], [3, 4]]) 3 2).1 = 0
      ∧ ∀ r c, (swap_rows true 0 (ofRows [[0, 1], [0, 2], [3, 4]]) 3 2).2 r c
          = if c < 2 then
              (if r = 0 then ofRows [[0, 1], [0, 2], [3, 4]] m0 c
               else if r = m0 then ofRows [[0, 1], [0, 2], [3, 4]] 0 c
               else ofRows [[0, 1], [0, 2], [3, 4]] r c)
            else ofRows [[0, 1], [0, 2], [3, 4]] r c :=
  swap_rows_success 0 (ofRows [[0, 1], [0, 2], [3, 4]]) 3 2
    ⟨2, by norm_num, by norm_num, by norm_num [ofRows, eps, lt_abs]⟩

/-- C14. The function `swap_rows` on failure: with the scratch row obtained
it returns 1 exactly when no row `m` with `row_num < m < R` has
`|A[m][row_num]| > 1e-15`; and whenever it returns 1, for that reason or
because the scratch row was refused, the matrix is left unchanged. -/
theorem swap_rows_failure (row_num : Nat) (A : Mat) (R C : Nat) :
    ((swap_rows true row_num A R C).1 = 1
        ↔ ∀ m, row_num < m → m < R → ¬ (|A m row_num| > eps))
      ∧ (∀ ok : Bool, (swap_rows ok row_num A R C).1 = 1 →
          (swap_rows ok row_num A R C).2 = A) := by
  have key : ∀ ok : Bool, (swap_rows ok row_num A R C).1 = 1 →
      (swap_rows ok row_num A R C).2 = A
        ∧ (ok = true → ∀ m, row_num < m → m < R → ¬ (|A m row_num| > eps)) := by
    intro ok h1
    cases ok with
    | false => exact ⟨by simp [swap_rows], fun h => absurd h (by decide)⟩
    | true =>
      rw [swap_rows_true] at h1 ⊢
      rcases swap_rows_scan_cases row_num A C (R - (row_num + 1)) (row_num + 1) with
        ⟨hall, hres⟩ | ⟨m0, _, _, _, _, hres⟩
      · exact ⟨by rw [hres], fun _ m m1 m2 => hall m (by omega) (by omega)⟩
      · rw [hres] at h1
        simp at h1
  refine ⟨⟨fun h1 => (key true h1).2 rfl, ?_⟩, fun ok h1 => (key ok h1).1⟩
  intro hall
  rw [swap_rows_true, swap_rows_scan_fail row_num A C (R - (row_num + 1)) (row_num + 1)
    (fun m m1 m2 => hall m (by omega) (by omega))]

/-! ## The damped result on `[[1,2],[2,4]]` -/

theorem sing_state2 (al : Alloc) (r c : Nat) (hr : r < 2) (hc : c < 4) :
    pivotState al (ofRows [[1, 2], [2, 4]]) 2 2 r c
      = ofRows [[1, 0, 1 + 4 * 10 ^ 15, -2 * 10 ^ 15], [0, 1, -2 * 10 ^ 15, 10 ^ 15]] r c := by
  rw [pivotState_succ, gj_step_apply_damped _ _ _ _ _ _ _ (sing_damped al)]
  have h00 := sing_state1 al 0 0 (by norm_num) (by norm_num)
  have h01 := sing_state1 al 0 1 (by norm_num) (by norm_num)
  have h02 := sing_state1 al 0 2 (by norm_num) (by norm_num)
  have h03 := sing_state1 al 0 3 (by norm_num) (by norm_num)
  have h10 := sing_state1 al 1 0 (by norm_num) (by norm_num)
  have h11 := sing_state1 al 1 1 (by norm_num) (by norm_num)
  have h12 := sing_state1 al 1 2 (by norm_num) (by norm_num)
  have h13 := sing_state1 al 1 3 (by norm_num) (by norm_num)
  interval_cases r <;> interval_cases c <;>
    simp only [setEntry, h00, h01, h02, h03, h10, h11, h12, h13] <;>
    norm_num [ofRows, eps]

/-- C15. Degenerate continuation on the singular example: on
`[[1,2],[2,4]]` with order 2, once the working buffer is obtained, pivot
step 1 is damped (the pivot is forced to `1e-15`), `inv_mat` returns 0 and
the output is `[[1 + 4e15, -2e15], [-2e15, 1e15]]`. -/
theorem inv_mat_singular_example (al : Alloc) (op : Mat)
    (h1 : al.rows = true) (h2 : ∀ i, i < 2 → al.row i = true) :
    (inv_mat al (ofRows [[1, 2], [2, 4]]) 2 op).1 = 0
      ∧ dampedAt (al.scratch 1) 1 (pivotState al (ofRows [[1, 2], [2, 4]]) 2 1) 2 (2 * 2)
      ∧ fix_pivot (al.scratch 1) 1 (pivotState al (ofRows [[1, 2], [2, 4]]) 2 1) 2 (2 * 2) 1 1
          = eps
      ∧ (inv_mat al (ofRows [[1, 2], [2, 4]]) 2 op).2 0 0 = 1 + 4 * 10 ^ 15
      ∧ (inv_mat al (ofRows [[1, 2], [2, 4]]) 2 op).2 0 1 = -2 * 10 ^ 15
      ∧ (inv_mat al (ofRows [[1, 2], [2, 4]]) 2 op).2 1 0 = -2 * 10 ^ 15
      ∧ (inv_mat al (ofRows [[1, 2], [2, 4]]) 2 op).2 1 1 = 10 ^ 15 := by
  refine ⟨?_, sing_damped al, ?_, ?_, ?_, ?_, ?_⟩
  · rw [inv_mat_of_alloc al _ op 2 h1 h2]
  · rw [fix_pivot_damped _ 1 _ 2 (2 * 2) (sing_damped al)]
    simp [setEntry]
  · rw [inv_mat_entry al _ op 2 h1 h2 0 0 (by norm_num) (by norm_num),
      sing_state2 al 0 2 (by norm_num) (by norm_num)]
    norm_num [ofRows]
  · rw [inv_mat_entry al _ op 2 h1 h2 0 1 (by norm_num) (by norm_num),
      sing_state2 al 0 3 (by norm_num) (by norm_num)]
    norm_num [ofRows]
  · rw [inv_mat_entry al _ op 2 h1 h2 1 0 (by norm_num) (by norm_num),
      sing_state2 al 1 2 (by norm_num) (by norm_num)]
    norm_num [ofRows]
  · rw [inv_mat_entry al _ op 2 h1 h2 1 1 (by norm_num) (by norm_num),
      sing_state2 al 1 3 (by norm_num) (by norm_num)]
    norm_num [ofRows]

/-- C15 with every allocation succeeding and a zeroed output buffer. -/
theorem inv_mat_singular_example_witness :
    (inv_mat Alloc.ok (ofRows [[1, 2], [2, 4]]) 2 (fun _ _ => 0)).1 = 0
      ∧ dampedAt (Alloc.ok.scratch 1) 1
          (pivotState Alloc.ok (ofRows [[1, 2], [2, 4]]) 2 1) 2 (2 * 2)
      ∧ fix_pivot (Alloc.ok.scratch 1) 1
          (pivotState Alloc.ok (ofRows [[1, 2], [2, 4]]) 2 1) 2 (2 * 2) 1 1 = eps
      ∧ (inv_mat Alloc.ok (ofRows [[1, 2], [2, 4]]) 2 (fun _ _ => 0)).2 0 0 = 1 + 4 * 10 ^ 15
      ∧ (inv_mat Alloc.ok (ofRows [[1, 2], [2, 4]]) 2 (fun _ _ => 0)).2 0 1 = -2 * 10 ^ 15
      ∧ (inv_mat Alloc.ok (ofRows [[1, 2], [2, 4]]) 2 (fun _ _ => 0)).2 1 0 = -2 * 10 ^ 15
      ∧ (inv_mat Alloc.ok (ofRows [[1, 2], [2, 4]]) 2 (fun _ _ => 0)).2 1 1 = 10 ^ 15 :=
  inv_mat_singular_example Alloc.ok (fun _ _ => 0) rfl (fun _ _ => rfl)

/-! ## The row-operation invariant -/

theorem rowEquation_iff (n : Nat) (A W : Mat) : rowEquation n A W ↔ rowInv n A W := by
  have e : ∀ r c : Fin n, (rightBlock n W * toMatrix n A) r c
      = ∑ k in Finset.range n, W r.val (n + k) * A k c.val := by
    intro r c
    rw [Matrix.mul_apply, Finset.sum_range (fun k => W r.val (n + k) * A k c.val)]
    rfl
  constructor
  · intro h r hr c hc
    have := congrFun (congrFun h ⟨r, hr⟩) ⟨c, hc⟩
    rw [e] at this
    exact this
  · intro h
    ext r c
    rw [e]
    exact h r.val r.isLt c.val c.isLt

theorem rowInv_swap_rows (ok : Bool) (n i : Nat) (A W : Mat) (hi : i < n)
    (hW : rowInv n A W) : rowInv n A (swap_rows ok i W n (2 * n)).2 := by
  cases ok with
  | false => simpa [swap_rows] using hW
  | true =>
    have hs : swap_rows true i W n (2 * n)
        = swap_rows_scan i W (2 * n) (n - (i + 1)) (i + 1) := by simp [swap_rows]
    rw [hs]
    rcases swap_rows_scan_cases i W (2 * n) (n - (i + 1)) (i + 1) with
      ⟨_, hres⟩ | ⟨m, m1, m2, _, _, hres⟩
    · rw [hres]; exact hW
    · rw [hres]
      have hm : m < n := by omega
      have hmi : ¬ m = i := by omega
      intro r hr
      by_cases h1 : r = i
      · apply rowOk_congr n A (W m) _ _ (hW m hm)
        intro c hc
        show W m c = forLoop (swap_entry i m) (2 * n) W r c
        rw [swap_loop_apply]
        simp [hc, h1]
      · by_cases h2 : r = m
        · apply rowOk_congr n A (W i) _ _ (hW i hi)
          intro c hc
          show W i c = forLoop (swap_entry i m) (2 * n) W r c
          rw [swap_loop_apply]
          simp [hc, h2, hmi]
        · apply rowOk_congr n A (W r) _ _ (hW r hr)
          intro c hc
          show W r c = forLoop (swap_entry i m) (2 * n) W r c
          rw [swap_loop_apply]
          simp [hc, h1, h2]

theorem rowInv_scale_row (n i : Nat) (d : ℚ) (A W : Mat) (hW : rowInv n A W) :
    rowInv n A (scale_row i d (2 * n) W) := by
  intro r hr
  by_cases h1 : r = i
  · apply rowOk_congr n A _ _ _ (rowOk_div n A (W r) d (hW r hr))
    intro c hc
    rw [scale_row_apply]
    simp [h1, hc]
  · apply rowOk_congr n A (W r) _ _ (hW r hr)
    intro c hc
    rw [scale_row_apply]
    simp [h1]

theorem rowInv_eliminate (n i : Nat) (A W : Mat) (hi : i < n) (hW : rowInv n A W) :
    rowInv n A (forLoop (eliminate_row i (2 * n)) n W) := by
  intro r hr
  by_cases h1 : r = i
  · apply rowOk_congr n A (W r) _ _ (hW r hr)
    intro c hc
    rw [eliminate_apply]
    simp [h1]
  · apply rowOk_congr n A _ _ _ (rowOk_sub_mul n A (W r) (W i) (W r i) (hW r hr) (hW i hi))
    intro c hc
    rw [eliminate_apply]
    simp [h1, hr, hc]

/-- C16. Row-operation invariant: for every `n x n` input `A`, the working
matrix `[L | R]` satisfies `R x A = L` after augmentation and after every
pivot step reached without damping; the row exchange of `swap_rows`, the row
scaling and the cross-elimination each preserve the equation. -/
theorem row_operation_invariant (al : Alloc) (A : Mat) (n : Nat) :
    rowEquation n A (augment A n al.fresh)
      ∧ (∀ i, i ≤ n → undampedBefore al A n i → rowEquation n A (pivotState al A n i))
      ∧ (∀ (W : Mat) (ok : Bool) (i : Nat), i < n → rowEquation n A W →
          rowEquation n A (swap_rows ok i W n (2 * n)).2)
      ∧ (∀ (W : Mat) (i : Nat) (d : ℚ), rowEquation n A W →
          rowEquation n A (scale_row i d (2 * n) W))
      ∧ (∀ (W : Mat) (i : Nat), i < n → rowEquation n A W →
          rowEquation n A (forLoop (eliminate_row i (2 * n)) n W)) := by
  refine ⟨?_, ?_, ?_, ?_, ?_⟩
  · exact (rowEquation_iff n A _).mpr (rowInv_augment n A al.fresh)
  · intro i hi hnd
    exact (rowEquation_iff n A _).mpr (rowInv_pivotState al A n i hi hnd)
  · intro W ok i hi hW
    exact (rowEquation_iff n A _).mpr
      (rowInv_swap_rows ok n i A W hi ((rowEquation_iff n A W).mp hW))
  · intro W i d hW
    exact (rowEquation_iff n A _).mpr
      (rowInv_scale_row n i d A W ((rowEquation_iff n A W).mp hW))
  · intro W i hi hW
    exact (rowEquation_iff n A _).mpr
      (rowInv_eliminate n i A W hi ((rowEquation_iff n A W).mp hW))

/-- C16 at the end of the undamped run on `[[4,7],[2,6]]`. -/
theorem row_operation_invariant_witness :
    rowEquation 2 (ofRows [[4, 7], [2, 6]])
      (pivotState Alloc.ok (ofRows [[4, 7], [2, 6]]) 2 2) :=
  (row_operation_invariant Alloc.ok (ofRows [[4, 7], [2, 6]]) 2).2.1 2 (le_refl 2)
    (ex_neverDamped Alloc.ok)

end MatrixInverter
